import Mathlib

/-!
BinarySearchTree.cpp: a bid index kept in an unbalanced binary search tree.

Shallow embedding of `BinarySearchTree.cpp` (struct `Bid`, struct `Node`, class
`BinarySearchTree`) together with theorems about `Insert`, `Search`, `Remove` and the
traversals.

Modelling decisions.

* `std::string` is a Lean `String`; `operator<` / `operator>` on `std::string` are the
  lexicographic comparison of the character codes (`strLt`, `strGt`), a prefix being smaller
  than any proper extension of it.
* `Bid::amount` is a `double` that the tree only stores and copies; it is carried as its
  64-bit pattern (`0` is `0.0`, the value the constructor `Bid()` assigns).
* A `Node*` is a value of the inductive type `Node`: either `nullptr` or a node with its bid
  and its two owned child pointers.  There is no sharing and there are no back pointers in the
  source, so an owned pointer graph is exactly a finite tree.
* A pointer *into* the tree (the result of `removeNode`) is the path of child links that leads
  from the node the search started at to the node pointed to.
* Writing to `std::cout` is modelled by returning what was written: the traversals return the
  list of bids handed to `printNodeData`, `Remove` returns the list of its reports.
* Teardown is modelled by what it frees: `recursiveDestructor` returns the pointers on which
  `delete` is executed.
-/

namespace BST

/-! ## `std::string` comparison -/

/-- Lexicographic "less than" on character sequences, as `std::string::compare` decides it:
the first differing character decides, otherwise the shorter sequence is the smaller. -/
def lexLt : List Char → List Char → Bool
  | _, [] => false
  | [], _ :: _ => true
  | a :: as, b :: bs =>
    if a.toNat < b.toNat then true
    else if b.toNat < a.toNat then false
    else lexLt as bs

/-- The C++ expression `a < b` on two `std::string`s. -/
def strLt (a b : String) : Bool := lexLt a.data b.data

/-- The C++ expression `a > b` on two `std::string`s. -/
def strGt (a b : String) : Bool := strLt b a

/-- Non-strict lexicographic order `a <= b`, used to state sortedness. -/
def strLe (a b : String) : Prop := strLt b a = false

instance (a b : String) : Decidable (strLe a b) := by
  unfold strLe; infer_instance

/-! ## Data model -/

/-- The struct `Bid`. -/
structure Bid where
  bidId : String
  title : String
  fund : String
  amount : Nat
  deriving DecidableEq

/-- The bid built by the default constructor `Bid()`: empty strings and `amount = 0.0`.
`Search` returns it when nothing is found. -/
def emptyBid : Bid := { bidId := "", title := "", fund := "", amount := 0 }

/-- A value of type `Node*`: `nullptr`, or a pointer to a `Node` holding a bid and its two
child pointers. -/
inductive Node where
  | nullptr : Node
  | mk (bid : Bid) (left : Node) (right : Node) : Node
  deriving DecidableEq

/-- The node built by the constructor `Node(Bid aBid)`: both children are `nullptr`. -/
def Node.leaf (aBid : Bid) : Node := .mk aBid .nullptr .nullptr

/-- The test `node == nullptr`. -/
def Node.isNull : Node → Bool
  | .nullptr => true
  | .mk _ _ _ => false

/-- The class `BinarySearchTree`: its only data member is `root`. -/
structure BinarySearchTree where
  root : Node
  deriving DecidableEq

/-- The constructor `BinarySearchTree()`: `root = nullptr`. -/
def BinarySearchTree.empty : BinarySearchTree := { root := .nullptr }

/-! ## Insertion -/

/-- The method `addNode(Node* node, Bid* bid)`; the result is the subtree hanging from `node`
after the call.  The method dereferences `node`, and `Insert` calls it on a non-null root
only; the `nullptr` line is never reached from `Insert`. -/
def addNode : Node → Bid → Node
  | .nullptr, _ => .nullptr
  | .mk nb l r, bid =>
    if strGt nb.bidId bid.bidId then
      if l.isNull then .mk nb (Node.leaf bid) r
      else .mk nb (addNode l bid) r
    else
      if r.isNull then .mk nb l (Node.leaf bid)
      else .mk nb l (addNode r bid)

/-- The method `Insert(Bid bid)`. -/
def BinarySearchTree.Insert (t : BinarySearchTree) (bid : Bid) : BinarySearchTree :=
  if t.root.isNull then { root := Node.leaf bid }
  else { root := addNode t.root bid }

/-- Successive `Insert` calls, in list order, starting from the tree `t`. -/
def BinarySearchTree.insertAll (t : BinarySearchTree) (bids : List Bid) : BinarySearchTree :=
  bids.foldl BinarySearchTree.Insert t

/-! ## Search -/

/-- The `while (currNode != nullptr)` loop of `Search`, started with `currNode` equal to the
argument.  Every iteration returns, moves to a child, or sets `currNode = nullptr`, so the
loop is a structural recursion. -/
def searchLoop : Node → String → Bid
  | .nullptr, _ => emptyBid
  | .mk b l r, bidId =>
    if b.bidId = bidId then b
    else if !l.isNull && strGt b.bidId bidId then searchLoop l bidId
    else if !r.isNull && strLt b.bidId bidId then searchLoop r bidId
    else emptyBid

/-- The method `Search(string bidId)`. -/
def BinarySearchTree.Search (t : BinarySearchTree) (bidId : String) : Bid :=
  searchLoop t.root bidId

/-! ## Traversals -/

/-- The method `inOrder(Node* node)`: the bids passed to `printNodeData`, in order. -/
def inOrder : Node → List Bid
  | .nullptr => []
  | .mk b l r =>
    (if l.isNull then [] else inOrder l) ++ [b] ++ (if r.isNull then [] else inOrder r)

/-- The method `preOrder(Node* node)`. -/
def preOrder : Node → List Bid
  | .nullptr => []
  | .mk b l r =>
    [b] ++ (if l.isNull then [] else preOrder l) ++ (if r.isNull then [] else preOrder r)

/-- The method `postOrder(Node* node)`. -/
def postOrder : Node → List Bid
  | .nullptr => []
  | .mk b l r =>
    (if l.isNull then [] else postOrder l) ++ (if r.isNull then [] else postOrder r) ++ [b]

/-- The method `InOrder()`. -/
def BinarySearchTree.InOrder (t : BinarySearchTree) : List Bid :=
  if t.root.isNull then [] else inOrder t.root

/-- The method `PreOrder()`. -/
def BinarySearchTree.PreOrder (t : BinarySearchTree) : List Bid :=
  if t.root.isNull then [] else preOrder t.root

/-- The method `PostOrder()`. -/
def BinarySearchTree.PostOrder (t : BinarySearchTree) : List Bid :=
  if t.root.isNull then [] else postOrder t.root

/-! ## Removal -/

/-- One child link of a node. -/
inductive Dir where
  | left : Dir
  | right : Dir
  deriving DecidableEq

/-- A pointer to a node inside a tree: the child links to follow from the top. -/
abbrev Path := List Dir

/-- The node a path leads to (`nullptr` once the path leaves the tree). -/
def Node.subtree : Node → Path → Node
  | n, [] => n
  | .nullptr, _ :: _ => .nullptr
  | .mk _ l _, Dir.left :: p => l.subtree p
  | .mk _ _ r, Dir.right :: p => r.subtree p

/-- The tree after the node a path leads to has been overwritten by `s`. -/
def Node.replace : Node → Path → Node → Node
  | _, [], s => s
  | .nullptr, _ :: _, _ => .nullptr
  | .mk b l r, Dir.left :: p, s => .mk b (l.replace p s) r
  | .mk b l r, Dir.right :: p, s => .mk b l (r.replace p s)

/-- The method `removeNode(Node* node, string* bidId)`.  It returns a pointer to a node at or
below `node`, here the path from `node` to it, or `nullptr`, here `none`.  `Remove` calls it
on a non-null root only. -/
def removeNode : Node → String → Option Path
  | .nullptr, _ => none
  | .mk b l r, bidId =>
    match l with
    | .mk lb _ _ =>
      if lb.bidId = bidId then some []
      else if strGt b.bidId bidId then (removeNode l bidId).map (Dir.left :: ·)
      else
        match r with
        | .mk rb _ _ =>
          if rb.bidId = bidId then some []
          else if strLt b.bidId bidId then (removeNode r bidId).map (Dir.right :: ·)
          else none
        | .nullptr => none
    | .nullptr =>
      match r with
      | .mk rb _ _ =>
        if rb.bidId = bidId then some []
        else if strLt b.bidId bidId then (removeNode r bidId).map (Dir.right :: ·)
        -- control leaves the `else if` block and reaches `if (node != nullptr) return node;`
        else some []
      | .nullptr => none

/-- What `Remove` writes to `std::cout`. -/
inductive Report where
  /-- The line "Bid not found, returning...". -/
  | notFound : Report
  /-- The text "Deleting node: " followed by `printNodeData` of the node to delete. -/
  | deleting (bid : Bid) : Report
  deriving DecidableEq

/-- The method `Remove(string bidId)`: the tree after the call and what was printed.
`parentNode->left = nodeToDelete->left; parentNode->right = nodeToDelete->right;` overwrites
both links of the node `parentNode` points to. -/
def BinarySearchTree.Remove (t : BinarySearchTree) (bidId : String) :
    BinarySearchTree × List Report :=
  let parentNode : Option Path := if t.root.isNull then none else removeNode t.root bidId
  match parentNode with
  | none => (t, [Report.notFound])
  | some p =>
    match t.root.subtree p with
    | .mk pb (.mk lb ll lr) _ =>
      if lb.bidId = bidId then ({ root := t.root.replace p (.mk pb ll lr) }, [Report.deleting lb])
      else (t, [])
    | .mk pb .nullptr (.mk rb rl rr) =>
      if rb.bidId = bidId then ({ root := t.root.replace p (.mk pb rl rr) }, [Report.deleting rb])
      else (t, [])
    | _ => (t, [])

/-- A call made on the tree by its client. -/
inductive Op where
  | insert (bid : Bid) : Op
  | remove (bidId : String) : Op
  deriving DecidableEq

/-- The tree after one call. -/
def BinarySearchTree.step (t : BinarySearchTree) : Op → BinarySearchTree
  | .insert bid => t.Insert bid
  | .remove bidId => (t.Remove bidId).1

/-- The tree after a sequence of calls, in list order. -/
def BinarySearchTree.run (t : BinarySearchTree) (ops : List Op) : BinarySearchTree :=
  ops.foldl BinarySearchTree.step t

/-- A bid with the given id and otherwise default fields, for concrete scenarios. -/
def bidOf (bidId : String) : Bid := { emptyBid with bidId := bidId }

/-! ## Auxiliary notions used in the statements -/

/-- The bids stored in the nodes reachable from a pointer, left subtree first. -/
def Node.bids : Node → List Bid
  | .nullptr => []
  | .mk b l r => l.bids ++ b :: r.bids

/-- The node at which the loop of `Search` returns a stored bid, if it does. -/
def searchHit : Node → String → Option Bid
  | .nullptr, _ => none
  | .mk b l r, bidId =>
    if b.bidId = bidId then some b
    else if !l.isNull && strGt b.bidId bidId then searchHit l bidId
    else if !r.isNull && strLt b.bidId bidId then searchHit r bidId
    else none

/-- The weak search-tree invariant: at every node, ids on the left are `<=` the node's id and
ids on the right are `>=` it. -/
def WeakBST : Node → Prop
  | .nullptr => True
  | .mk b l r =>
    (∀ x ∈ l.bids, strLe x.bidId b.bidId) ∧ (∀ x ∈ r.bids, strLe b.bidId x.bidId) ∧
      WeakBST l ∧ WeakBST r

/-- The strict search-tree invariant: at every node, ids on the left are `<` the node's id and
ids on the right are `>` it. -/
def StrictBST : Node → Prop
  | .nullptr => True
  | .mk b l r =>
    (∀ x ∈ l.bids, strLt x.bidId b.bidId = true) ∧ (∀ x ∈ r.bids, strLt b.bidId x.bidId = true) ∧
      StrictBST l ∧ StrictBST r

/-- The weak invariant can be checked by running over the tree. -/
instance WeakBST.instDecidable : (n : Node) → Decidable (WeakBST n)
  | .nullptr => isTrue trivial
  | .mk b l r =>
    have := WeakBST.instDecidable l
    have := WeakBST.instDecidable r
    inferInstanceAs (Decidable ((∀ x ∈ l.bids, strLe x.bidId b.bidId) ∧
      (∀ x ∈ r.bids, strLe b.bidId x.bidId) ∧ WeakBST l ∧ WeakBST r))

/-- Comparison of two bids by id: `a.bidId <= b.bidId`. -/
def bidLe (a b : Bid) : Prop := strLe a.bidId b.bidId

instance (a b : Bid) : Decidable (bidLe a b) := by
  unfold bidLe; infer_instance

/-- The stable sort of a sequence of bids by id: insertion sort, which puts a bid in front of
the bids of the same id that come after it in the sequence. -/
def stableSortById (bids : List Bid) : List Bid := List.insertionSort bidLe bids

/-- The number of nodes on the longest path from a pointer down the tree (`0` for
`nullptr`). -/
def Node.height : Node → Nat
  | .nullptr => 0
  | .mk _ l r => 1 + max l.height r.height

/-- No node reachable from the pointer has a left child. -/
def Node.noLeftChild : Node → Prop
  | .nullptr => True
  | .mk _ l r => l = Node.nullptr ∧ r.noLeftChild

/-- The right-leaning chain that holds the given bids from the top down. -/
def Node.chain : List Bid → Node
  | [] => .nullptr
  | b :: bs => .mk b .nullptr (Node.chain bs)

/-- The pointers to all nodes reachable from a pointer, as paths from it. -/
def Node.nodes : Node → List Path
  | .nullptr => []
  | .mk _ l r => [] :: (l.nodes.map (Dir.left :: ·) ++ r.nodes.map (Dir.right :: ·))

/-! ## Teardown -/

/-- The method `recursiveDestructor(Node* node)`: the pointers on which `delete` is executed,
as paths from `node`.  The method calls itself on the left child if there is one, else on the
right child if there is one, and executes `delete node` only in the remaining case, a node
without children; nothing follows the recursive calls. -/
def recursiveDestructor : Node → List Path
  | .nullptr => []
  | .mk _ l r =>
    if !l.isNull then (recursiveDestructor l).map (Dir.left :: ·)
    else if !r.isNull then (recursiveDestructor r).map (Dir.right :: ·)
    else [[]]

/-- The destructor `~BinarySearchTree()`: the pointers it deletes, as paths from the root. -/
def BinarySearchTree.destructor (t : BinarySearchTree) : List Path :=
  if !t.root.isNull then recursiveDestructor t.root else []

/-! ## The order on `std::string` is a strict total order -/

theorem lexLt_irrefl (a : List Char) : lexLt a a = false := by
  induction a with
  | nil => rfl
  | cons c cs ih => simp [lexLt, ih]

theorem lexLt_trans : ∀ (a b c : List Char), lexLt a b = true → lexLt b c = true →
    lexLt a c = true
  | _, [], _, h, _ => by simp [lexLt] at h
  | _, _ :: _, [], _, h => by simp [lexLt] at h
  | [], _ :: _, _ :: _, _, _ => by simp [lexLt]
  | x :: xs, y :: ys, z :: zs, h₁, h₂ => by
    simp only [lexLt] at h₁ h₂ ⊢
    split_ifs at h₁ h₂ ⊢ <;> first
      | rfl
      | omega
      | exact lexLt_trans xs ys zs h₁ h₂

theorem lexLt_total : ∀ (a b : List Char), lexLt a b = false → lexLt b a = false → a = b
  | [], [], _, _ => rfl
  | [], _ :: _, h, _ => by simp [lexLt] at h
  | _ :: _, [], _, h => by simp [lexLt] at h
  | x :: xs, y :: ys, h₁, h₂ => by
    simp only [lexLt] at h₁ h₂
    split_ifs at h₁ h₂
    have hxy : x.toNat = y.toNat := by omega
    have hc : x = y := by rw [← Char.ofNat_toNat x, ← Char.ofNat_toNat y, hxy]
    rw [hc, lexLt_total xs ys h₁ h₂]

theorem strLt_irrefl (a : String) : strLt a a = false := lexLt_irrefl a.data

theorem strLt_trans {a b c : String} (h₁ : strLt a b = true) (h₂ : strLt b c = true) :
    strLt a c = true := lexLt_trans _ _ _ h₁ h₂

theorem strLt_total {a b : String} (h₁ : strLt a b = false) (h₂ : strLt b a = false) :
    a = b := String.ext (lexLt_total _ _ h₁ h₂)

theorem strLt_asymm {a b : String} (h : strLt a b = true) : strLt b a = false := by
  cases hba : strLt b a with
  | false => rfl
  | true => have := strLt_trans h hba; rw [strLt_irrefl] at this; cases this

theorem strLt_ne {a b : String} (h : strLt a b = true) : a ≠ b := by
  intro hab; subst hab; rw [strLt_irrefl] at h; cases h

theorem strLe_refl (a : String) : strLe a a := strLt_irrefl a

theorem strLe_of_strLt {a b : String} (h : strLt a b = true) : strLe a b := strLt_asymm h

theorem strLe_trans {a b c : String} (h₁ : strLe a b) (h₂ : strLe b c) : strLe a c := by
  unfold strLe at *
  cases hca : strLt c a with
  | false => rfl
  | true =>
    cases hbc : strLt b c with
    | true => rw [strLt_trans hbc hca] at h₁; cases h₁
    | false =>
      have hcb : c = b := strLt_total h₂ hbc
      subst hcb; rw [hca] at h₁; cases h₁

/-! ## Search and insertion -/

@[simp] theorem Node.isNull_nullptr : Node.nullptr.isNull = true := rfl

@[simp] theorem Node.isNull_mk (b : Bid) (l r : Node) : (Node.mk b l r).isNull = false := rfl

@[simp] theorem Node.isNull_leaf (b : Bid) : (Node.leaf b).isNull = false := rfl

theorem Node.eq_nullptr_of_isNull {n : Node} (h : n.isNull = true) : n = Node.nullptr := by
  cases n with
  | nullptr => rfl
  | mk b l r => simp at h

theorem searchLoop_eq_searchHit (n : Node) (k : String) :
    searchLoop n k = (searchHit n k).getD emptyBid := by
  induction n with
  | nullptr => rfl
  | mk b l r ihl ihr =>
    simp only [searchLoop, searchHit]
    split_ifs <;> simp [ihl, ihr]

theorem searchHit_leaf (b : Bid) (k : String) :
    searchHit (Node.leaf b) k = if b.bidId = k then some b else none := by
  simp [Node.leaf, searchHit]

theorem addNode_isNull (n : Node) (bid : Bid) (h : n.isNull = false) :
    (addNode n bid).isNull = false := by
  cases n with
  | nullptr => simp at h
  | mk b l r => simp only [addNode]; split_ifs <;> rfl

/-- Searching after `addNode`: a hit of the old tree stays, otherwise the new bid is hit exactly
when it carries the searched id.  No ordering invariant is needed. -/
theorem searchHit_addNode (n : Node) (bid : Bid) (k : String) (h : n.isNull = false) :
    searchHit (addNode n bid) k
      = (searchHit n k).orElse (fun _ => if bid.bidId = k then some bid else none) := by
  induction n with
  | nullptr => simp at h
  | mk b l r ihl ihr =>
    by_cases hbk : b.bidId = k
    · simp only [addNode]
      split_ifs <;> simp [searchHit, hbk]
    · by_cases hgt : strGt b.bidId bid.bidId = true
      · -- the new bid goes to the left
        have hne : bid.bidId ≠ k ∨ strGt b.bidId k = true := by
          by_cases e : bid.bidId = k
          · right; rw [← e]; exact hgt
          · left; exact e
        by_cases hl : l.isNull = true
        · simp only [addNode, hgt, hl, if_true]
          by_cases hk : strGt b.bidId k = true
          · have hlt : strLt b.bidId k = false := strLt_asymm hk
            simp [searchHit, hbk, hk, hl, hlt, Node.leaf]
          · have e : bid.bidId ≠ k := hne.resolve_right hk
            simp [searchHit, hbk, hk, hl, e, Node.leaf]
        · have hl' : l.isNull = false := by simpa using hl
          simp only [addNode, hgt, hl', if_true]
          by_cases hk : strGt b.bidId k = true
          · simp [searchHit, hbk, hk, hl', addNode_isNull l bid hl', ihl hl']
          · have e : bid.bidId ≠ k := hne.resolve_right hk
            simp [searchHit, hbk, hk, hl', e]
      · -- the new bid goes to the right
        have hgt' : strGt b.bidId bid.bidId = false := by simpa using hgt
        have hne : strGt b.bidId k = true → bid.bidId ≠ k := by
          intro hk e; rw [← e, hgt'] at hk; cases hk
        have hne' : strGt b.bidId k = false → strLt b.bidId k = false → bid.bidId ≠ k := by
          intro h₁ h₂ _; exact hbk (strLt_total h₂ h₁)
        by_cases hr : r.isNull = true
        · simp only [addNode, hgt', hr, if_true]
          by_cases hk : strGt b.bidId k = true
          · have hlt : strLt b.bidId k = false := strLt_asymm hk
            have e := hne hk
            by_cases hl : l.isNull = true <;>
              simp [searchHit, hbk, hk, hr, hl, hlt, e, Node.leaf]
          · have hk' : strGt b.bidId k = false := by simpa using hk
            by_cases hlt : strLt b.bidId k = true
            · simp [searchHit, hbk, hk', hr, hlt, Node.leaf]
            · have hlt' : strLt b.bidId k = false := by simpa using hlt
              have e := hne' hk' hlt'
              simp [searchHit, hbk, hk', hr, hlt', e, Node.leaf]
        · have hr' : r.isNull = false := by simpa using hr
          simp only [addNode, hgt', hr', if_false]
          by_cases hk : strGt b.bidId k = true
          · have hlt : strLt b.bidId k = false := strLt_asymm hk
            have e := hne hk
            by_cases hl : l.isNull = true <;>
              simp [searchHit, hbk, hk, hr', hl, hlt, e, addNode_isNull r bid hr']
          · have hk' : strGt b.bidId k = false := by simpa using hk
            by_cases hlt : strLt b.bidId k = true
            · simp [searchHit, hbk, hk', hr', hlt, addNode_isNull r bid hr', ihr hr']
            · have hlt' : strLt b.bidId k = false := by simpa using hlt
              have e := hne' hk' hlt'
              simp [searchHit, hbk, hk', hr', hlt', e, addNode_isNull r bid hr']

theorem searchHit_Insert (t : BinarySearchTree) (bid : Bid) (k : String) :
    searchHit (t.Insert bid).root k
      = (searchHit t.root k).orElse (fun _ => if bid.bidId = k then some bid else none) := by
  unfold BinarySearchTree.Insert
  by_cases h : t.root.isNull = true
  · have hn : t.root = Node.nullptr := Node.eq_nullptr_of_isNull h
    simp [h, hn, searchHit_leaf, searchHit]
  · have h' : t.root.isNull = false := by simpa using h
    simp [h', searchHit_addNode t.root bid k h']

theorem searchHit_insertAll (bids : List Bid) (t : BinarySearchTree) (k : String) :
    searchHit (t.insertAll bids).root k
      = (searchHit t.root k).orElse (fun _ => bids.find? (fun x => decide (x.bidId = k))) := by
  induction bids generalizing t with
  | nil => cases h : searchHit t.root k <;> simp [BinarySearchTree.insertAll, h]
  | cons b bs ih =>
    have := ih (t.Insert b)
    simp only [BinarySearchTree.insertAll, List.foldl_cons] at this ⊢
    rw [this, searchHit_Insert]
    cases h : searchHit t.root k with
    | some x => simp
    | none =>
      by_cases e : b.bidId = k <;> simp [List.find?_cons, e]

theorem find?_eq_some_split {k : String} : ∀ {bids : List Bid} {b : Bid},
    bids.find? (fun x => decide (x.bidId = k)) = some b →
    ∃ pre post, bids = pre ++ b :: post ∧ (∀ x ∈ pre, x.bidId ≠ k) ∧ b.bidId = k
  | [], _, h => by simp at h
  | x :: xs, b, h => by
    by_cases e : x.bidId = k
    · simp [List.find?_cons, e] at h
      subst h
      exact ⟨[], xs, rfl, by simp, e⟩
    · simp [List.find?_cons, e] at h
      obtain ⟨pre, post, h₁, h₂, h₃⟩ := find?_eq_some_split h
      refine ⟨x :: pre, post, by simp [h₁], ?_, h₃⟩
      intro y hy
      rcases List.mem_cons.mp hy with rfl | hy
      · exact e
      · exact h₂ y hy

theorem searchHit_some {n : Node} {k : String} {x : Bid} (h : searchHit n k = some x) :
    x ∈ n.bids ∧ x.bidId = k := by
  induction n with
  | nullptr => simp [searchHit] at h
  | mk b l r ihl ihr =>
    simp only [searchHit] at h
    split_ifs at h with h₁ h₂ h₃
    · cases h; exact ⟨by simp [Node.bids], h₁⟩
    · exact ⟨by simp [Node.bids, (ihl h).1], (ihl h).2⟩
    · exact ⟨by simp [Node.bids, (ihr h).1], (ihr h).2⟩

/-! ## Stored bids, traversals and the ordering invariants -/

theorem inOrder_eq_bids (n : Node) : inOrder n = n.bids := by
  induction n with
  | nullptr => rfl
  | mk b l r ihl ihr =>
    have hl : (if l.isNull = true then [] else inOrder l) = l.bids := by
      cases l <;> simp_all [Node.bids]
    have hr : (if r.isNull = true then [] else inOrder r) = r.bids := by
      cases r <;> simp_all [Node.bids]
    simp only [inOrder, Node.bids, hl, hr, List.append_assoc, List.singleton_append]

theorem InOrder_eq_bids (t : BinarySearchTree) : t.InOrder = t.root.bids := by
  unfold BinarySearchTree.InOrder
  cases h : t.root <;> simp [inOrder_eq_bids, Node.bids]

theorem bids_leaf (b : Bid) : (Node.leaf b).bids = [b] := rfl

theorem perm_cons_middle (xs ys : List Bid) (b bid : Bid) :
    (xs ++ b :: bid :: ys).Perm (bid :: (xs ++ b :: ys)) := by
  have h := @List.perm_middle Bid bid (xs ++ [b]) ys
  simpa using h

theorem bids_addNode_perm (n : Node) (bid : Bid) (h : n.isNull = false) :
    (addNode n bid).bids.Perm (bid :: n.bids) := by
  induction n with
  | nullptr => simp at h
  | mk b l r ihl ihr =>
    simp only [addNode]
    split_ifs with h₁ h₂ h₃
    · rw [Node.eq_nullptr_of_isNull h₂]
      simp [Node.bids, bids_leaf]
    · have := ihl (by simpa using h₂)
      simp only [Node.bids]
      exact (this.append_right _).trans (by simp)
    · rw [Node.eq_nullptr_of_isNull h₃]
      simp only [Node.bids, bids_leaf]
      exact perm_cons_middle l.bids [] b bid
    · have := ihr (by simpa using h₃)
      simp only [Node.bids]
      exact ((this.cons b).append_left l.bids).trans (perm_cons_middle l.bids r.bids b bid)

theorem mem_bids_addNode {n : Node} {bid x : Bid} (h : n.isNull = false) :
    x ∈ (addNode n bid).bids ↔ x = bid ∨ x ∈ n.bids := by
  rw [(bids_addNode_perm n bid h).mem_iff, List.mem_cons]

theorem bids_Insert_perm (t : BinarySearchTree) (bid : Bid) :
    (t.Insert bid).root.bids.Perm (bid :: t.root.bids) := by
  unfold BinarySearchTree.Insert
  by_cases h : t.root.isNull = true
  · simp [h, Node.eq_nullptr_of_isNull h, bids_leaf, Node.bids]
  · have h' : t.root.isNull = false := by simpa using h
    simpa [h'] using bids_addNode_perm t.root bid h'

theorem mem_bids_Insert {t : BinarySearchTree} {bid x : Bid} :
    x ∈ (t.Insert bid).root.bids ↔ x = bid ∨ x ∈ t.root.bids := by
  rw [(bids_Insert_perm t bid).mem_iff, List.mem_cons]

theorem weakBST_leaf (b : Bid) : WeakBST (Node.leaf b) := by
  simp [Node.leaf, WeakBST, Node.bids]

theorem weakBST_addNode (n : Node) (bid : Bid) (h : n.isNull = false) (hw : WeakBST n) :
    WeakBST (addNode n bid) := by
  induction n with
  | nullptr => simp at h
  | mk b l r ihl ihr =>
    obtain ⟨hL, hR, hwl, hwr⟩ := hw
    simp only [addNode]
    split_ifs with h₁ h₂ h₃
    · refine ⟨?_, hR, weakBST_leaf bid, hwr⟩
      intro x hx
      rw [bids_leaf, List.mem_singleton] at hx
      subst hx
      exact strLe_of_strLt h₁
    · have hl' : l.isNull = false := by simpa using h₂
      refine ⟨?_, hR, ihl hl' hwl, hwr⟩
      intro x hx
      rcases (mem_bids_addNode hl').mp hx with rfl | hx
      · exact strLe_of_strLt h₁
      · exact hL x hx
    · refine ⟨hL, ?_, hwl, weakBST_leaf bid⟩
      intro x hx
      rw [bids_leaf, List.mem_singleton] at hx
      subst hx
      simpa [strLe, strGt] using h₁
    · have hr' : r.isNull = false := by simpa using h₃
      refine ⟨hL, ?_, hwl, ihr hr' hwr⟩
      intro x hx
      rcases (mem_bids_addNode hr').mp hx with rfl | hx
      · simpa [strLe, strGt] using h₁
      · exact hR x hx

theorem weakBST_Insert (t : BinarySearchTree) (bid : Bid) (hw : WeakBST t.root) :
    WeakBST (t.Insert bid).root := by
  unfold BinarySearchTree.Insert
  by_cases h : t.root.isNull = true
  · simpa [h] using weakBST_leaf bid
  · have h' : t.root.isNull = false := by simpa using h
    simpa [h'] using weakBST_addNode t.root bid h' hw

theorem weakBST_insertAll (bids : List Bid) (t : BinarySearchTree) (hw : WeakBST t.root) :
    WeakBST (t.insertAll bids).root := by
  induction bids generalizing t with
  | nil => exact hw
  | cons b bs ih => exact ih (t.Insert b) (weakBST_Insert t b hw)

theorem sorted_bids_of_weakBST (n : Node) (hw : WeakBST n) :
    (n.bids.map Bid.bidId).Pairwise strLe := by
  induction n with
  | nullptr => simp [Node.bids]
  | mk b l r ihl ihr =>
    obtain ⟨hL, hR, hwl, hwr⟩ := hw
    simp only [Node.bids, List.map_append, List.map_cons, List.pairwise_append,
      List.pairwise_cons, List.mem_map, List.mem_cons]
    refine ⟨ihl hwl, ⟨?_, ihr hwr⟩, ?_⟩
    · rintro _ ⟨x, hx, rfl⟩
      exact hR x hx
    · rintro _ ⟨x, hx, rfl⟩ _ (rfl | ⟨y, hy, rfl⟩)
      · exact hL x hx
      · exact strLe_trans (hL x hx) (hR y hy)

/-! ## Claims about `Insert`, `Search` and `InOrder` -/

/-- C1: after inserting any finite sequence of bids (duplicate ids allowed) into the empty
tree, `Search(k)` for an id `k` occurring in the sequence returns the earliest-inserted bid
with id `k`, field for field; with pairwise distinct ids it therefore returns the bid that was
inserted under `k`. -/
theorem search_returns_earliest_inserted (bids : List Bid) (k : String)
    (hk : k ∈ bids.map Bid.bidId) :
    (∃ pre b post, bids = pre ++ b :: post ∧ (∀ x ∈ pre, x.bidId ≠ k) ∧ b.bidId = k ∧
        (BinarySearchTree.empty.insertAll bids).Search k = b) ∧
      ((bids.map Bid.bidId).Nodup → ∀ r ∈ bids, r.bidId = k →
        (BinarySearchTree.empty.insertAll bids).Search k = r) := by
  have hs : (BinarySearchTree.empty.insertAll bids).Search k
      = (bids.find? (fun x => decide (x.bidId = k))).getD emptyBid := by
    unfold BinarySearchTree.Search
    rw [searchLoop_eq_searchHit, searchHit_insertAll]
    simp [BinarySearchTree.empty, searchHit]
  obtain ⟨y, hy, hyk⟩ := List.mem_map.mp hk
  have hsome : (bids.find? (fun x => decide (x.bidId = k))).isSome = true := by
    rw [List.find?_isSome]
    exact ⟨y, hy, by simp [hyk]⟩
  obtain ⟨b, hb⟩ := Option.isSome_iff_exists.mp hsome
  obtain ⟨pre, post, h₁, h₂, h₃⟩ := find?_eq_some_split hb
  have hsb : (BinarySearchTree.empty.insertAll bids).Search k = b := by
    rw [hs, hb]; rfl
  refine ⟨⟨pre, b, post, h₁, h₂, h₃, hsb⟩, ?_⟩
  intro hnd r hr hrk
  rw [hsb]
  have hbmem : b ∈ bids := by rw [h₁]; simp
  exact List.inj_on_of_nodup_map hnd hbmem hr (h₃.trans hrk.symm)

/-- Witness for C1: two bids share the id "7"; the search returns the one inserted first. -/
theorem search_returns_earliest_inserted_witness :
    "7" ∈ [Bid.mk "7" "first" "f" 1, Bid.mk "3" "other" "g" 2, Bid.mk "7" "second" "h" 3].map
        Bid.bidId ∧
      (BinarySearchTree.empty.insertAll
        [Bid.mk "7" "first" "f" 1, Bid.mk "3" "other" "g" 2, Bid.mk "7" "second" "h" 3]).Search "7"
        = Bid.mk "7" "first" "f" 1 := by
  refine ⟨by decide, ?_⟩
  obtain ⟨pre, b, post, h₁, h₂, h₃, h₄⟩ := (search_returns_earliest_inserted
    [Bid.mk "7" "first" "f" 1, Bid.mk "3" "other" "g" 2, Bid.mk "7" "second" "h" 3] "7"
    (by decide)).1
  rw [h₄]
  cases pre with
  | nil => simp at h₁; exact h₁.1.symm
  | cons p ps =>
    simp at h₁
    exact absurd (by rw [← h₁.1]) (h₂ p (by simp))

theorem bids_insertAll_perm (bids : List Bid) (t : BinarySearchTree) :
    (t.insertAll bids).root.bids.Perm (bids ++ t.root.bids) := by
  induction bids generalizing t with
  | nil => exact List.Perm.refl _
  | cons b bs ih =>
    have h₁ : ((t.Insert b).insertAll bs).root.bids.Perm (bs ++ (t.Insert b).root.bids) :=
      ih (t.Insert b)
    have h₂ : (bs ++ (t.Insert b).root.bids).Perm (bs ++ b :: t.root.bids) :=
      (bids_Insert_perm t b).append_left bs
    exact (h₁.trans h₂).trans List.perm_middle

/-- C2: for every `N >= 0` and every sequence of `N` bids with pairwise distinct ids inserted
into the empty tree, `InOrder` lists exactly the inserted bids (it is a permutation of the
sequence, so every inserted id is listed once and nothing else is), and it lists their ids in
non-decreasing lexicographic order; the ids being distinct, the order is even strictly
ascending. -/
theorem inOrder_sorted_after_inserts (bids : List Bid) (hd : (bids.map Bid.bidId).Nodup) :
    ((BinarySearchTree.empty.insertAll bids).InOrder).Perm bids ∧
      (((BinarySearchTree.empty.insertAll bids).InOrder).map Bid.bidId).Pairwise strLe ∧
      (((BinarySearchTree.empty.insertAll bids).InOrder).map Bid.bidId).Pairwise
        (fun a b => strLt a b = true) := by
  rw [InOrder_eq_bids]
  have hperm : (BinarySearchTree.empty.insertAll bids).root.bids.Perm bids := by
    simpa [BinarySearchTree.empty, Node.bids] using
      bids_insertAll_perm bids BinarySearchTree.empty
  have hsorted := sorted_bids_of_weakBST _
    (weakBST_insertAll bids BinarySearchTree.empty trivial)
  have hnd : ((BinarySearchTree.empty.insertAll bids).root.bids.map Bid.bidId).Nodup :=
    (hperm.map _).nodup_iff.mpr hd
  refine ⟨hperm, hsorted, ?_⟩
  refine (hsorted.and hnd).imp ?_
  intro a b hab
  cases h : strLt a b with
  | true => rfl
  | false => exact absurd (strLt_total h hab.1) hab.2

/-- Witness for C2: the ids "50", "30", "70", "20", "40" are pairwise distinct; `InOrder`
lists the five bids, by ascending id. -/
theorem inOrder_sorted_after_inserts_witness :
    ((["50", "30", "70", "20", "40"].map bidOf).map Bid.bidId).Nodup ∧
      ((BinarySearchTree.empty.insertAll (["50", "30", "70", "20", "40"].map bidOf)).InOrder).Perm
        (["50", "30", "70", "20", "40"].map bidOf) ∧
      (((BinarySearchTree.empty.insertAll (["50", "30", "70", "20", "40"].map bidOf)).InOrder).map
        Bid.bidId).Pairwise strLe :=
  ⟨by decide, (inOrder_sorted_after_inserts _ (by decide)).1,
    (inOrder_sorted_after_inserts _ (by decide)).2.1⟩

/-- C4: on a tree of any shape, `Search(id)` returns either a bid stored in a node of the
tree whose `bidId` is `id`, or the bid built by `Bid()` (empty `bidId`, `title`, `fund` and
amount `0`); when no node holds `id` it returns the latter. -/
theorem search_stored_or_sentinel (t : BinarySearchTree) (bidId : String) :
    emptyBid = Bid.mk "" "" "" 0 ∧
      ((t.Search bidId ∈ t.root.bids ∧ (t.Search bidId).bidId = bidId) ∨
        t.Search bidId = emptyBid) ∧
      ((∀ x ∈ t.root.bids, x.bidId ≠ bidId) → t.Search bidId = emptyBid) := by
  unfold BinarySearchTree.Search
  rw [searchLoop_eq_searchHit]
  refine ⟨rfl, ?_, ?_⟩
  · cases h : searchHit t.root bidId with
    | none => right; rfl
    | some x => left; exact searchHit_some h
  · intro hno
    cases h : searchHit t.root bidId with
    | none => rfl
    | some x => exact absurd (searchHit_some h).2 (hno x (searchHit_some h).1)

/-! ## Paths, `removeNode` and `Remove` -/

@[simp] theorem Node.subtree_nullptr (p : Path) : Node.nullptr.subtree p = Node.nullptr := by
  cases p <;> rfl

@[simp] theorem Node.subtree_nil (n : Node) : n.subtree [] = n := by
  cases n <;> rfl

theorem Node.mem_bids_of_mem_subtree {x : Bid} : ∀ (n : Node) (p : Path),
    x ∈ (n.subtree p).bids → x ∈ n.bids
  | _, [], h => by simpa using h
  | .nullptr, _ :: _, h => by simp [Node.subtree, Node.bids] at h
  | .mk b l r, Dir.left :: p, h => by
    have := Node.mem_bids_of_mem_subtree l p h
    simp [Node.bids, this]
  | .mk b l r, Dir.right :: p, h => by
    have := Node.mem_bids_of_mem_subtree r p h
    simp [Node.bids, this]

/-- Overwriting the links of a node below (or at) the root leaves the root's bid in place. -/
theorem Node.replace_keeps_top {b pb : Bid} {l r pl pr : Node} (x y : Node) :
    ∀ (p : Path), (Node.mk b l r).subtree p = Node.mk pb pl pr →
      ∃ l' r', (Node.mk b l r).replace p (Node.mk pb x y) = Node.mk b l' r'
  | [], h => by
    simp only [Node.subtree, Node.mk.injEq] at h
    exact ⟨x, y, by simp [Node.replace, h.1]⟩
  | Dir.left :: p, _ => ⟨l.replace p (Node.mk pb x y), r, rfl⟩
  | Dir.right :: p, _ => ⟨l, r.replace p (Node.mk pb x y), rfl⟩

/-- The three outcomes of `Remove` once `removeNode` has returned a node. -/
theorem Remove_of_parent {t : BinarySearchTree} {k : String} {p : Path}
    (hnn : t.root.isNull = false) (hp : removeNode t.root k = some p) :
    t.Remove k =
      match t.root.subtree p with
      | .mk pb (.mk lb ll lr) _ =>
        if lb.bidId = k then
          ({ root := t.root.replace p (.mk pb ll lr) }, [Report.deleting lb])
        else (t, [])
      | .mk pb .nullptr (.mk rb rl rr) =>
        if rb.bidId = k then
          ({ root := t.root.replace p (.mk pb rl rr) }, [Report.deleting rb])
        else (t, [])
      | _ => (t, []) := by
  simp only [BinarySearchTree.Remove, hnn, hp, Bool.false_eq_true, if_false]

theorem Remove_of_no_parent {t : BinarySearchTree} {k : String}
    (hp : t.root.isNull = true ∨ removeNode t.root k = none) :
    t.Remove k = (t, [Report.notFound]) := by
  rcases hp with hp | hp
  · simp only [BinarySearchTree.Remove, hp, if_true]
  · simp [BinarySearchTree.Remove, hp]

/-- Whatever `Remove` does, the root pointer keeps pointing to a node with the same bid. -/
theorem Remove_root (t : BinarySearchTree) (k : String) {b : Bid} {l r : Node}
    (ht : t.root = Node.mk b l r) : ∃ l' r', (t.Remove k).1.root = Node.mk b l' r' := by
  cases hp : removeNode t.root k with
  | none => rw [Remove_of_no_parent (Or.inr hp)]; exact ⟨l, r, ht⟩
  | some p =>
    rw [Remove_of_parent (by rw [ht]; rfl) hp]
    split
    · next pb lb ll lr pr hs =>
      split_ifs
      · rw [ht] at hs ⊢; exact Node.replace_keeps_top ll lr p hs
      · exact ⟨l, r, ht⟩
    · next pb rb rl rr hs =>
      split_ifs
      · rw [ht] at hs ⊢; exact Node.replace_keeps_top rl rr p hs
      · exact ⟨l, r, ht⟩
    · exact ⟨l, r, ht⟩

/-- C7: `Remove(id)` on a non-empty tree leaves the tree non-empty with the same bid in its
root node; on a tree that is a single root node, `Remove(root.id)` changes nothing and
`Search(root.id)` afterwards still returns the root's bid. -/
theorem remove_keeps_root_record (t : BinarySearchTree) (bidId : String)
    (hne : t.root.isNull = false) :
    (∃ b l r l' r', t.root = Node.mk b l r ∧ (t.Remove bidId).1.root = Node.mk b l' r') ∧
      (∀ b : Bid,
        ((BinarySearchTree.mk (Node.leaf b)).Remove b.bidId).1 = BinarySearchTree.mk (Node.leaf b) ∧
        (((BinarySearchTree.mk (Node.leaf b)).Remove b.bidId).1).Search b.bidId = b) := by
  constructor
  · cases ht : t.root with
    | nullptr => rw [ht] at hne; simp at hne
    | mk b l r =>
      obtain ⟨l', r', h⟩ := Remove_root t bidId ht
      exact ⟨b, l, r, l', r', rfl, h⟩
  · intro b
    have h : (BinarySearchTree.mk (Node.leaf b)).Remove b.bidId
        = (BinarySearchTree.mk (Node.leaf b), [Report.notFound]) :=
      Remove_of_no_parent (Or.inr rfl)
    rw [h]
    exact ⟨rfl, by simp [BinarySearchTree.Search, Node.leaf, searchLoop]⟩

/-- Witness for C7: the tree built from "50", "30", "70", and removal of the root's own id. -/
theorem remove_keeps_root_record_witness :
    (BinarySearchTree.empty.insertAll (["50", "30", "70"].map bidOf)).root.isNull = false ∧
      ∃ l' r', ((BinarySearchTree.empty.insertAll (["50", "30", "70"].map bidOf)).Remove
        "50").1.root = Node.mk (bidOf "50") l' r' := by
  refine ⟨by decide, ?_⟩
  obtain ⟨b, l, r, l', r', h₁, h₂⟩ := (remove_keeps_root_record
    (BinarySearchTree.empty.insertAll (["50", "30", "70"].map bidOf)) "50" (by decide)).1
  have hb : b = bidOf "50" := by
    have h : (BinarySearchTree.empty.insertAll (["50", "30", "70"].map bidOf)).root
        = Node.mk (bidOf "50") (Node.leaf (bidOf "30")) (Node.leaf (bidOf "70")) := by decide
    rw [h] at h₁
    exact (Node.mk.inj h₁).1.symm
  exact ⟨l', r', hb ▸ h₂⟩

/-- C8: on a tree of any shape, `Remove(id)` for an id that no node holds leaves the tree
unchanged: same shape, same bid in every node. -/
theorem remove_absent_id_unchanged (t : BinarySearchTree) (bidId : String)
    (habs : ∀ x ∈ t.root.bids, x.bidId ≠ bidId) : (t.Remove bidId).1 = t := by
  cases hp : removeNode t.root bidId with
  | none => rw [Remove_of_no_parent (Or.inr hp)]
  | some p =>
    have hnn : t.root.isNull = false := by
      cases ht : t.root with
      | nullptr => rw [ht] at hp; simp [removeNode] at hp
      | mk b l r => rfl
    rw [Remove_of_parent hnn hp]
    split
    · next pb lb ll lr pr hs =>
      have hmem : lb ∈ t.root.bids :=
        Node.mem_bids_of_mem_subtree t.root p (by rw [hs]; simp [Node.bids])
      rw [if_neg (habs lb hmem)]
    · next pb rb rl rr hs =>
      have hmem : rb ∈ t.root.bids :=
        Node.mem_bids_of_mem_subtree t.root p (by rw [hs]; simp [Node.bids])
      rw [if_neg (habs rb hmem)]
    · rfl

/-- Witness for C8: "40" is not an id of the tree built from "50" and "70"; here `removeNode`
returns the root although neither child matches, and `Remove` still changes nothing. -/
theorem remove_absent_id_unchanged_witness :
    (∀ x ∈ (BinarySearchTree.empty.insertAll (["50", "70"].map bidOf)).root.bids,
        x.bidId ≠ "40") ∧
      ((BinarySearchTree.empty.insertAll (["50", "70"].map bidOf)).Remove "40").1
        = BinarySearchTree.empty.insertAll (["50", "70"].map bidOf) :=
  ⟨by decide, remove_absent_id_unchanged _ "40" (by decide)⟩

/-- C3, evaluated where it fails: after `Insert` of "50", "30", "70" and `Remove("30")`, the
id "70" was inserted and never removed, yet `Search("70")` returns the default bid, because
`Remove` overwrote the right link of the root with the right child of the excised node. -/
theorem search_after_remove_loses_sibling :
    (["50", "30", "70"].map bidOf).map Bid.bidId = ["50", "30", "70"] ∧
      (BinarySearchTree.empty.run
        [Op.insert (bidOf "50"), Op.insert (bidOf "30"), Op.insert (bidOf "70"),
          Op.remove "30"]).Search "70" = emptyBid ∧
      (BinarySearchTree.empty.run
        [Op.insert (bidOf "50"), Op.insert (bidOf "30"), Op.insert (bidOf "70"),
          Op.remove "30"]) = BinarySearchTree.mk (Node.leaf (bidOf "50")) ∧
      bidOf "70" ≠ emptyBid := by
  decide

/-- C5, evaluated where it fails: `Remove` can return without printing anything.  On the tree
built from "50" and "70", `Remove("40")` (an id no node holds) changes nothing and prints
nothing; on the tree built from "50", "30", "70", `Remove("70")` (an id the right child of
the root holds) changes nothing and prints nothing. -/
theorem remove_can_be_silent :
    (∀ x ∈ (BinarySearchTree.empty.insertAll (["50", "70"].map bidOf)).root.bids,
        x.bidId ≠ "40") ∧
      (BinarySearchTree.empty.insertAll (["50", "70"].map bidOf)).Remove "40"
        = (BinarySearchTree.empty.insertAll (["50", "70"].map bidOf), []) ∧
      (BinarySearchTree.empty.insertAll (["50", "30", "70"].map bidOf)).Remove "70"
        = (BinarySearchTree.empty.insertAll (["50", "30", "70"].map bidOf), []) := by
  decide

/-! ## Trees built by `Insert` from pairwise distinct ids -/

theorem strictBST_leaf (b : Bid) : StrictBST (Node.leaf b) := by
  simp [Node.leaf, StrictBST, Node.bids]

theorem strictBST_addNode (n : Node) (bid : Bid) (h : n.isNull = false) (hs : StrictBST n)
    (hfresh : ∀ x ∈ n.bids, x.bidId ≠ bid.bidId) : StrictBST (addNode n bid) := by
  induction n with
  | nullptr => simp at h
  | mk b l r ihl ihr =>
    obtain ⟨hL, hR, hsl, hsr⟩ := hs
    have hfl : ∀ x ∈ l.bids, x.bidId ≠ bid.bidId := fun x hx =>
      hfresh x (by simp [Node.bids, hx])
    have hfr : ∀ x ∈ r.bids, x.bidId ≠ bid.bidId := fun x hx =>
      hfresh x (by simp [Node.bids, hx])
    have hright : strGt b.bidId bid.bidId = false → strLt b.bidId bid.bidId = true := by
      intro hg
      cases hlt : strLt b.bidId bid.bidId with
      | true => rfl
      | false => exact absurd (strLt_total hlt hg) (hfresh b (by simp [Node.bids]))
    simp only [addNode]
    split_ifs with h₁ h₂ h₃
    · refine ⟨?_, hR, strictBST_leaf bid, hsr⟩
      intro x hx
      rw [bids_leaf, List.mem_singleton] at hx
      subst hx
      exact h₁
    · have hl' : l.isNull = false := by simpa using h₂
      refine ⟨?_, hR, ihl hl' hsl hfl, hsr⟩
      intro x hx
      rcases (mem_bids_addNode hl').mp hx with rfl | hx
      · exact h₁
      · exact hL x hx
    · refine ⟨hL, ?_, hsl, strictBST_leaf bid⟩
      intro x hx
      rw [bids_leaf, List.mem_singleton] at hx
      subst hx
      exact hright (by simpa using h₁)
    · have hr' : r.isNull = false := by simpa using h₃
      refine ⟨hL, ?_, hsl, ihr hr' hsr hfr⟩
      intro x hx
      rcases (mem_bids_addNode hr').mp hx with rfl | hx
      · exact hright (by simpa using h₁)
      · exact hR x hx

theorem strictBST_Insert (t : BinarySearchTree) (bid : Bid) (hs : StrictBST t.root)
    (hfresh : ∀ x ∈ t.root.bids, x.bidId ≠ bid.bidId) : StrictBST (t.Insert bid).root := by
  unfold BinarySearchTree.Insert
  by_cases h : t.root.isNull = true
  · simpa [h] using strictBST_leaf bid
  · have h' : t.root.isNull = false := by simpa using h
    simpa [h'] using strictBST_addNode t.root bid h' hs hfresh

theorem strictBST_insertAll (bids : List Bid) (t : BinarySearchTree) (hs : StrictBST t.root)
    (hd : ((bids ++ t.root.bids).map Bid.bidId).Nodup) : StrictBST (t.insertAll bids).root := by
  induction bids generalizing t with
  | nil => exact hs
  | cons b bs ih =>
    have hd' : (b.bidId :: ((bs ++ t.root.bids).map Bid.bidId)).Nodup := by simpa using hd
    have hfresh : ∀ x ∈ t.root.bids, x.bidId ≠ b.bidId := by
      intro x hx e
      exact (List.nodup_cons.mp hd').1 (List.mem_map.mpr ⟨x, by simp [hx], e⟩)
    refine ih (t.Insert b) (strictBST_Insert t b hs hfresh) ?_
    have hp : ((bs ++ (t.Insert b).root.bids).map Bid.bidId).Perm
        ((b :: bs ++ t.root.bids).map Bid.bidId) :=
      (((bids_Insert_perm t b).append_left bs).trans List.perm_middle).map _
    exact hp.nodup_iff.mpr hd

/-- A tree built from the empty tree by inserting bids with pairwise distinct ids is a strict
search tree and stores exactly the inserted bids. -/
theorem built_tree_facts (bids : List Bid) (hd : (bids.map Bid.bidId).Nodup) :
    StrictBST (BinarySearchTree.empty.insertAll bids).root ∧
      ((BinarySearchTree.empty.insertAll bids).root.bids.map Bid.bidId).Nodup := by
  have hp := bids_insertAll_perm bids BinarySearchTree.empty
  simp only [BinarySearchTree.empty, Node.bids, List.append_nil] at hp
  refine ⟨strictBST_insertAll bids _ trivial (by simpa [BinarySearchTree.empty, Node.bids]), ?_⟩
  exact (hp.map _).nodup_iff.mpr hd

theorem StrictBST.subtree : ∀ (n : Node) (p : Path), StrictBST n → StrictBST (n.subtree p)
  | _, [], h => by simpa using h
  | .nullptr, _ :: _, _ => by simp [StrictBST]
  | .mk _ l _, Dir.left :: p, h => StrictBST.subtree l p h.2.2.1
  | .mk _ _ r, Dir.right :: p, h => StrictBST.subtree r p h.2.2.2

theorem StrictBST.child_ne {b x : Bid} {l r : Node} (h : StrictBST (Node.mk b l r))
    (hx : x ∈ l.bids ∨ x ∈ r.bids) : x.bidId ≠ b.bidId := by
  rcases hx with hx | hx
  · exact strLt_ne (h.1 x hx)
  · exact (strLt_ne (h.2.1 x hx)).symm

/-- A bid stored strictly below the node a path leads to is stored strictly below the node the
path starts from. -/
theorem mem_children_of_subtree {b pb x : Bid} {l r pl pr : Node} :
    ∀ (p : Path), (Node.mk b l r).subtree p = Node.mk pb pl pr →
      (x ∈ pl.bids ∨ x ∈ pr.bids) → x ∈ l.bids ∨ x ∈ r.bids
  | [], h, hx => by
    simp only [Node.subtree_nil, Node.mk.injEq] at h
    rw [h.2.1, h.2.2]; exact hx
  | Dir.left :: p, h, hx =>
    Or.inl (Node.mem_bids_of_mem_subtree l p (by
      rw [show l.subtree p = Node.mk pb pl pr from h]
      rcases hx with hx | hx <;> simp [Node.bids, hx]))
  | Dir.right :: p, h, hx =>
    Or.inr (Node.mem_bids_of_mem_subtree r p (by
      rw [show r.subtree p = Node.mk pb pl pr from h]
      rcases hx with hx | hx <;> simp [Node.bids, hx]))

theorem removeNode_left (b lb : Bid) (ll lr r : Node) (k : String) :
    removeNode (Node.mk b (Node.mk lb ll lr) r) k =
      if lb.bidId = k then some []
      else if strGt b.bidId k = true then
        (removeNode (Node.mk lb ll lr) k).map (Dir.left :: ·)
      else
        match r with
        | .mk rb _ _ =>
          if rb.bidId = k then some []
          else if strLt b.bidId k = true then (removeNode r k).map (Dir.right :: ·)
          else none
        | .nullptr => none := by
  rfl

theorem removeNode_right_only (b rb : Bid) (rl rr : Node) (k : String) :
    removeNode (Node.mk b Node.nullptr (Node.mk rb rl rr)) k =
      if rb.bidId = k then some []
      else if strLt b.bidId k = true then
        (removeNode (Node.mk rb rl rr) k).map (Dir.right :: ·)
      else some [] := by
  rfl

/-- In a strict search tree, `removeNode` looking for an id stored strictly below the node `P`
walks from the top down to `P` and answers what it answers when started at `P`. -/
theorem removeNode_descend {k : String} {pb : Bid} {pl pr : Node} :
    ∀ (p : Path) (n : Node), StrictBST n → n.subtree p = Node.mk pb pl pr →
      (∃ x, (x ∈ pl.bids ∨ x ∈ pr.bids) ∧ x.bidId = k) →
      removeNode n k = (removeNode (Node.mk pb pl pr) k).map (p ++ ·)
  | [], n, _, hP, _ => by
    simp only [Node.subtree_nil] at hP
    rw [hP]
    cases removeNode (Node.mk pb pl pr) k <;> simp
  | _ :: _, .nullptr, _, hP, _ => by simp at hP
  | Dir.left :: p, .mk b l r, hs, hP, ⟨x, hx, hxk⟩ => by
    have hPl : l.subtree p = Node.mk pb pl pr := hP
    have ih := removeNode_descend p l hs.2.2.1 hPl ⟨x, hx, hxk⟩
    cases l with
    | nullptr => simp at hPl
    | mk lb ll lr =>
      have hxl : x ∈ (Node.mk lb ll lr).bids :=
        Node.mem_bids_of_mem_subtree _ p (by
          rw [hPl]; rcases hx with hx | hx <;> simp [Node.bids, hx])
      have h₁ : lb.bidId ≠ k := by
        rw [← hxk]
        exact (StrictBST.child_ne hs.2.2.1 (mem_children_of_subtree p hPl hx)).symm
      have h₂ : strGt b.bidId k = true := by
        rw [← hxk]; exact hs.1 x hxl
      rw [removeNode_left]
      simp only [h₁, h₂, if_false, if_true, ih]
      cases removeNode (Node.mk pb pl pr) k <;> simp
  | Dir.right :: p, .mk b l r, hs, hP, ⟨x, hx, hxk⟩ => by
    have hPr : r.subtree p = Node.mk pb pl pr := hP
    have ih := removeNode_descend p r hs.2.2.2 hPr ⟨x, hx, hxk⟩
    cases r with
    | nullptr => simp at hPr
    | mk rb rl rr =>
      have hxr : x ∈ (Node.mk rb rl rr).bids :=
        Node.mem_bids_of_mem_subtree _ p (by
          rw [hPr]; rcases hx with hx | hx <;> simp [Node.bids, hx])
      have h₁ : rb.bidId ≠ k := by
        rw [← hxk]
        exact (StrictBST.child_ne hs.2.2.2 (mem_children_of_subtree p hPr hx)).symm
      have h₂ : strLt b.bidId k = true := by
        rw [← hxk]; exact hs.2.1 x hxr
      have h₃ : strGt b.bidId k = false := strLt_asymm h₂
      cases l with
      | nullptr =>
        rw [removeNode_right_only]
        simp only [h₁, h₂, if_false, if_true, ih]
        cases removeNode (Node.mk pb pl pr) k <;> simp
      | mk lb ll lr =>
        have h₄ : lb.bidId ≠ k :=
          strLt_ne (strLt_trans (hs.1 lb (by simp [Node.bids])) h₂)
        rw [removeNode_left]
        simp only [h₁, h₂, h₃, h₄, if_false, if_true, ih, Bool.false_eq_true]
        cases removeNode (Node.mk pb pl pr) k <;> simp

theorem Node.subtree_replace (s : Node) : ∀ (n : Node) (p : Path),
    (n.subtree p).isNull = false → (n.replace p s).subtree p = s
  | _, [], _ => by simp [Node.replace]
  | .nullptr, _ :: _, h => by simp at h
  | .mk _ l _, Dir.left :: p, h => by
    simpa [Node.replace, Node.subtree] using Node.subtree_replace s l p h
  | .mk _ _ r, Dir.right :: p, h => by
    simpa [Node.replace, Node.subtree] using Node.subtree_replace s r p h

/-- Overwriting the node a path leads to changes the stored bids only inside that subtree. -/
theorem Node.bids_replace : ∀ (n : Node) (p : Path), (n.subtree p).isNull = false →
    ∃ pre post, n.bids = pre ++ (n.subtree p).bids ++ post ∧
      ∀ s : Node, (n.replace p s).bids = pre ++ s.bids ++ post
  | n, [], _ => ⟨[], [], by simp, fun s => by simp [Node.replace]⟩
  | .nullptr, _ :: _, h => by simp at h
  | .mk b l r, Dir.left :: p, h => by
    obtain ⟨pre, post, h₁, h₂⟩ := Node.bids_replace l p h
    refine ⟨pre, post ++ b :: r.bids, ?_, fun s => ?_⟩
    · simp only [Node.bids, Node.subtree]; rw [h₁]; simp
    · simp only [Node.bids, Node.replace]; rw [h₂ s]; simp
  | .mk b l r, Dir.right :: p, h => by
    obtain ⟨pre, post, h₁, h₂⟩ := Node.bids_replace r p h
    refine ⟨l.bids ++ b :: pre, post, ?_, fun s => ?_⟩
    · simp only [Node.bids, Node.subtree]; rw [h₁]; simp
    · simp only [Node.bids, Node.replace]; rw [h₂ s]; simp

/-- If the overwritten subtree stored the bids `extra` on top of those of its replacement, so
did the whole tree. -/
theorem Node.perm_bids_replace {n s : Node} {p : Path} {extra : List Bid}
    (hv : (n.subtree p).isNull = false) (h : (n.subtree p).bids.Perm (extra ++ s.bids)) :
    n.bids.Perm (extra ++ (n.replace p s).bids) := by
  obtain ⟨pre, post, h₁, h₂⟩ := Node.bids_replace n p hv
  rw [h₁, h₂ s]
  have h₃ : (pre ++ (n.subtree p).bids ++ post).Perm (pre ++ (extra ++ s.bids) ++ post) :=
    (h.append_left pre).append_right post
  refine h₃.trans ?_
  rw [List.perm_iff_count]
  intro a
  simp only [List.count_append]
  omega

theorem Node.isNull_false_of_subtree {n : Node} {p : Path} {b : Bid} {l r : Node}
    (h : n.subtree p = Node.mk b l r) : n.isNull = false := by
  cases n with
  | nullptr => simp at h
  | mk _ _ _ => rfl

/-! ## Claims about `Remove` on trees built from pairwise distinct ids -/

/-- C6: in a tree built by `Insert` from pairwise distinct ids, let `P` (reached by the path
`p`) have a left child `L` and a right child `R`.  After `Remove(L.id)` the subtree at `P`'s
position is the node with `P`'s bid, `L`'s former left subtree and `L`'s former right subtree,
and nothing else in the tree has changed; the bids of `L`, of `R` and of everything below `R`
are no longer stored, every other bid still is. -/
theorem remove_left_child_overwrites_both_links (bids : List Bid)
    (hd : (bids.map Bid.bidId).Nodup) (t : BinarySearchTree)
    (ht : t = BinarySearchTree.empty.insertAll bids) (p : Path) (pb lb : Bid)
    (ll lr R : Node) (hP : t.root.subtree p = Node.mk pb (Node.mk lb ll lr) R)
    (_hR : R.isNull = false) :
    (t.Remove lb.bidId).1.root = t.root.replace p (Node.mk pb ll lr) ∧
      (t.Remove lb.bidId).1.root.subtree p = Node.mk pb ll lr ∧
      t.root.bids.Perm (lb :: R.bids ++ (t.Remove lb.bidId).1.root.bids) ∧
      lb ∉ (t.Remove lb.bidId).1.root.bids ∧
      ∀ x ∈ R.bids, x ∉ (t.Remove lb.bidId).1.root.bids := by
  obtain ⟨hs, hnd⟩ := built_tree_facts bids hd
  rw [← ht] at hs hnd
  have hnn : t.root.isNull = false := Node.isNull_false_of_subtree hP
  have hv : (t.root.subtree p).isNull = false := by rw [hP]; rfl
  have hrn : removeNode t.root lb.bidId = some p := by
    rw [removeNode_descend p t.root hs hP ⟨lb, Or.inl (by simp [Node.bids]), rfl⟩,
      removeNode_left]
    simp
  have hrem : t.Remove lb.bidId
      = ({ root := t.root.replace p (Node.mk pb ll lr) }, [Report.deleting lb]) := by
    rw [Remove_of_parent hnn hrn]
    simp only [hP, if_true]
  have hperm : t.root.bids.Perm (lb :: R.bids ++ (t.root.replace p (Node.mk pb ll lr)).bids) := by
    apply Node.perm_bids_replace hv
    rw [hP, List.perm_iff_count]
    intro a
    simp only [Node.bids, List.count_append, List.count_cons]
    omega
  have hnd' : (lb :: R.bids ++ (t.root.replace p (Node.mk pb ll lr)).bids).Nodup :=
    hperm.nodup_iff.mp (List.Nodup.of_map _ hnd)
  rw [hrem]
  refine ⟨rfl, Node.subtree_replace _ _ _ hv, hperm, ?_, ?_⟩
  · intro hmem
    have := (List.nodup_cons.mp hnd').1
    exact this (List.mem_append_right _ hmem)
  · intro x hx hmem
    have := (List.nodup_append.mp (List.nodup_cons.mp hnd').2).2.2
    exact this hx hmem

/-- Witness for C6: in the tree built from "50", "30", "70", "20", "40" the root has the left
child "30" (children "20" and "40") and the right child "70". -/
theorem remove_left_child_overwrites_both_links_witness :
    ((["50", "30", "70", "20", "40"].map bidOf).map Bid.bidId).Nodup ∧
      (BinarySearchTree.empty.insertAll (["50", "30", "70", "20", "40"].map bidOf)).root.subtree []
        = Node.mk (bidOf "50")
            (Node.mk (bidOf "30") (Node.leaf (bidOf "20")) (Node.leaf (bidOf "40")))
            (Node.leaf (bidOf "70")) ∧
      ((BinarySearchTree.empty.insertAll (["50", "30", "70", "20", "40"].map bidOf)).Remove
          "30").1.root
        = Node.mk (bidOf "50") (Node.leaf (bidOf "20")) (Node.leaf (bidOf "40")) :=
  ⟨by decide, by decide,
    (remove_left_child_overwrites_both_links (["50", "30", "70", "20", "40"].map bidOf)
      (by decide) _ rfl [] (bidOf "50") (bidOf "30") (Node.leaf (bidOf "20"))
      (Node.leaf (bidOf "40")) (Node.leaf (bidOf "70")) (by decide) (by decide)).1⟩

/-- C9: in a tree built by `Insert` from pairwise distinct ids, let `P` (reached by the path
`p`) have a left child and a right child `R`.  `Remove(R.id)` leaves the whole tree unchanged:
`R` is not excised although its id is stored in the tree. -/
theorem remove_right_child_with_left_sibling_unchanged (bids : List Bid)
    (hd : (bids.map Bid.bidId).Nodup) (t : BinarySearchTree)
    (ht : t = BinarySearchTree.empty.insertAll bids) (p : Path) (pb rb : Bid)
    (L rl rr : Node) (hP : t.root.subtree p = Node.mk pb L (Node.mk rb rl rr))
    (hL : L.isNull = false) :
    (t.Remove rb.bidId).1 = t ∧ rb ∈ (t.Remove rb.bidId).1.root.bids := by
  obtain ⟨hs, -⟩ := built_tree_facts bids hd
  rw [← ht] at hs
  have hnn : t.root.isNull = false := Node.isNull_false_of_subtree hP
  cases L with
  | nullptr => simp at hL
  | mk lb ll lr =>
    have hsP : StrictBST (Node.mk pb (Node.mk lb ll lr) (Node.mk rb rl rr)) := by
      rw [← hP]; exact StrictBST.subtree _ _ hs
    have h₁ : strLt lb.bidId pb.bidId = true := hsP.1 lb (by simp [Node.bids])
    have h₂ : strLt pb.bidId rb.bidId = true := hsP.2.1 rb (by simp [Node.bids])
    have h₃ : lb.bidId ≠ rb.bidId := strLt_ne (strLt_trans h₁ h₂)
    have h₄ : strGt pb.bidId rb.bidId = false := strLt_asymm h₂
    have hrn : removeNode t.root rb.bidId = some p := by
      rw [removeNode_descend p t.root hs hP ⟨rb, Or.inr (by simp [Node.bids]), rfl⟩,
        removeNode_left]
      simp [h₃, h₄]
    have hrem : t.Remove rb.bidId = (t, []) := by
      rw [Remove_of_parent hnn hrn]
      simp only [hP, h₃, if_false]
    rw [hrem]
    exact ⟨rfl, Node.mem_bids_of_mem_subtree t.root p (by rw [hP]; simp [Node.bids])⟩

/-- Witness for C9: in the tree built from "50", "30", "70" the root has both children, and
`Remove("70")` leaves the tree as it is. -/
theorem remove_right_child_with_left_sibling_unchanged_witness :
    ((["50", "30", "70"].map bidOf).map Bid.bidId).Nodup ∧
      (BinarySearchTree.empty.insertAll (["50", "30", "70"].map bidOf)).root.subtree []
        = Node.mk (bidOf "50") (Node.leaf (bidOf "30")) (Node.mk (bidOf "70") .nullptr .nullptr) ∧
      ((BinarySearchTree.empty.insertAll (["50", "30", "70"].map bidOf)).Remove "70").1
        = BinarySearchTree.empty.insertAll (["50", "30", "70"].map bidOf) :=
  ⟨by decide, by decide,
    (remove_right_child_with_left_sibling_unchanged (["50", "30", "70"].map bidOf)
      (by decide) _ rfl [] (bidOf "50") (bidOf "70") (Node.leaf (bidOf "30")) .nullptr .nullptr
      (by decide) (by decide)).1⟩

/-- C10: in a tree built by `Insert` from pairwise distinct ids, let `P` (reached by the path
`p`) have no left child and a right child `R`.  After `Remove(R.id)` the subtree at `P`'s
position is the node with `P`'s bid, `R`'s former left subtree as left subtree and `R`'s
former right subtree as right subtree; nothing else in the tree has changed, and only `R`'s
bid is no longer stored. -/
theorem remove_only_right_child_splices (bids : List Bid)
    (hd : (bids.map Bid.bidId).Nodup) (t : BinarySearchTree)
    (ht : t = BinarySearchTree.empty.insertAll bids) (p : Path) (pb rb : Bid)
    (rl rr : Node) (hP : t.root.subtree p = Node.mk pb Node.nullptr (Node.mk rb rl rr)) :
    (t.Remove rb.bidId).1.root = t.root.replace p (Node.mk pb rl rr) ∧
      (t.Remove rb.bidId).1.root.subtree p = Node.mk pb rl rr ∧
      t.root.bids.Perm (rb :: (t.Remove rb.bidId).1.root.bids) := by
  obtain ⟨hs, -⟩ := built_tree_facts bids hd
  rw [← ht] at hs
  have hnn : t.root.isNull = false := Node.isNull_false_of_subtree hP
  have hv : (t.root.subtree p).isNull = false := by rw [hP]; rfl
  have hrn : removeNode t.root rb.bidId = some p := by
    rw [removeNode_descend p t.root hs hP ⟨rb, Or.inr (by simp [Node.bids]), rfl⟩,
      removeNode_right_only]
    simp
  have hrem : t.Remove rb.bidId
      = ({ root := t.root.replace p (Node.mk pb rl rr) }, [Report.deleting rb]) := by
    rw [Remove_of_parent hnn hrn]
    simp only [hP, if_true]
  rw [hrem]
  refine ⟨rfl, Node.subtree_replace _ _ _ hv, ?_⟩
  have h : t.root.bids.Perm ([rb] ++ (t.root.replace p (Node.mk pb rl rr)).bids) := by
    apply Node.perm_bids_replace hv
    rw [hP, List.perm_iff_count]
    intro a
    simp only [Node.bids, List.count_append, List.count_cons, List.count_nil]
    omega
  simpa using h

/-- Witness for C10: in the tree built from "50", "70", "60", "80" the root has no left child
and the right child "70" (children "60" and "80"); `Remove("70")` hangs "60" to the left and
"80" to the right of the root. -/
theorem remove_only_right_child_splices_witness :
    ((["50", "70", "60", "80"].map bidOf).map Bid.bidId).Nodup ∧
      (BinarySearchTree.empty.insertAll (["50", "70", "60", "80"].map bidOf)).root.subtree []
        = Node.mk (bidOf "50") Node.nullptr
            (Node.mk (bidOf "70") (Node.leaf (bidOf "60")) (Node.leaf (bidOf "80"))) ∧
      ((BinarySearchTree.empty.insertAll (["50", "70", "60", "80"].map bidOf)).Remove
          "70").1.root
        = Node.mk (bidOf "50") (Node.leaf (bidOf "60")) (Node.leaf (bidOf "80")) :=
  ⟨by decide, by decide,
    (remove_only_right_child_splices (["50", "70", "60", "80"].map bidOf)
      (by decide) _ rfl [] (bidOf "50") (bidOf "70") (Node.leaf (bidOf "60"))
      (Node.leaf (bidOf "80")) (by decide)).1⟩

/-! ## Scenario, invariants and `removeNode` on arbitrary trees -/

/-- C12: inserting bids with the ids "50", "30", "70", "20", "40" in that order into the empty
tree gives a tree whose `InOrder` lists "20", "30", "40", "50", "70", whose `PreOrder` lists
"50", "30", "20", "40", "70" and whose `PostOrder` lists "20", "40", "30", "70", "50". -/
theorem traversal_scenario :
    ((BinarySearchTree.empty.insertAll (["50", "30", "70", "20", "40"].map bidOf)).InOrder).map
        Bid.bidId = ["20", "30", "40", "50", "70"] ∧
      ((BinarySearchTree.empty.insertAll (["50", "30", "70", "20", "40"].map bidOf)).PreOrder).map
        Bid.bidId = ["50", "30", "20", "40", "70"] ∧
      ((BinarySearchTree.empty.insertAll (["50", "30", "70", "20", "40"].map bidOf)).PostOrder).map
        Bid.bidId = ["20", "40", "30", "70", "50"] := by
  decide

/-- C13: `Insert` preserves the weak search-tree invariant (at every node, ids in the left
subtree are `<=` the node's id and ids in the right subtree are `>=` it), and the empty tree
satisfies it. -/
theorem insert_preserves_weak_invariant (t : BinarySearchTree) (r : Bid)
    (hw : WeakBST t.root) :
    WeakBST (t.Insert r).root ∧ WeakBST BinarySearchTree.empty.root :=
  ⟨weakBST_Insert t r hw, trivial⟩

/-- Witness for C13: a tree that holds the id "50" twice, once in the left child of the root,
satisfies the weak invariant, and still does after another "50" is inserted. -/
theorem insert_preserves_weak_invariant_witness :
    WeakBST (BinarySearchTree.mk (Node.mk (bidOf "50") (Node.leaf (Bid.mk "50" "dup" "" 0))
        (Node.leaf (bidOf "70")))).root ∧
      WeakBST ((BinarySearchTree.mk (Node.mk (bidOf "50") (Node.leaf (Bid.mk "50" "dup" "" 0))
        (Node.leaf (bidOf "70")))).Insert (bidOf "50")).root :=
  ⟨by decide, (insert_preserves_weak_invariant _ (bidOf "50") (by decide)).1⟩

/-- C14, evaluated where it fails: after `Insert` of "50", "70", "60", "80" and
`Remove("70")` the root "50" has the left child "60"; the tree violates the weak invariant
and `InOrder` lists "60", "50", "80", which is not ascending. -/
theorem reachable_tree_violates_invariant :
    (BinarySearchTree.empty.run
        [Op.insert (bidOf "50"), Op.insert (bidOf "70"), Op.insert (bidOf "60"),
          Op.insert (bidOf "80"), Op.remove "70"]).root
        = Node.mk (bidOf "50") (Node.leaf (bidOf "60")) (Node.leaf (bidOf "80")) ∧
      ¬ WeakBST (BinarySearchTree.empty.run
        [Op.insert (bidOf "50"), Op.insert (bidOf "70"), Op.insert (bidOf "60"),
          Op.insert (bidOf "80"), Op.remove "70"]).root ∧
      ((BinarySearchTree.empty.run
        [Op.insert (bidOf "50"), Op.insert (bidOf "70"), Op.insert (bidOf "60"),
          Op.insert (bidOf "80"), Op.remove "70"]).InOrder).map Bid.bidId
        = ["60", "50", "80"] ∧
      ¬ (["60", "50", "80"] : List String).Pairwise strLe := by
  decide

/-- C15, evaluated where it fails: on the tree built from "50" and "70" (the root has only a
right child), `removeNode` started at the root with the target "40" returns the root, although
the root has no left child and its right child holds "70". -/
theorem removeNode_returns_node_without_match :
    (BinarySearchTree.empty.insertAll (["50", "70"].map bidOf)).root
        = Node.mk (bidOf "50") Node.nullptr (Node.leaf (bidOf "70")) ∧
      removeNode (BinarySearchTree.empty.insertAll (["50", "70"].map bidOf)).root "40"
        = some [] ∧
      (bidOf "70").bidId ≠ "40" := by
  decide

/-! ## Teardown -/

theorem recursiveDestructor_length (n : Node) (h : n.isNull = false) :
    (recursiveDestructor n).length = 1 := by
  induction n with
  | nullptr => simp at h
  | mk b l r ihl ihr =>
    simp only [recursiveDestructor]
    split_ifs with h₁ h₂
    · simpa using ihl (by simpa using h₁)
    · simpa using ihr (by simpa using h₂)
    · rfl

theorem nodes_length (n : Node) : n.nodes.length = n.bids.length := by
  induction n with
  | nullptr => rfl
  | mk b l r ihl ihr => simp [Node.nodes, Node.bids, ihl, ihr]; omega

/-- C17, evaluated where it fails: on the tree built from "50" and "30" the destructor deletes
the node "30" only, while the tree has two nodes; on every tree it deletes at most one node,
so the deleted nodes are a permutation of the nodes of the tree only for trees of at most one
node. -/
theorem destructor_deletes_one_leaf :
    (BinarySearchTree.empty.insertAll (["50", "30"].map bidOf)).destructor = [[Dir.left]] ∧
      (BinarySearchTree.empty.insertAll (["50", "30"].map bidOf)).root.nodes
        = [[], [Dir.left]] ∧
      ¬ (BinarySearchTree.empty.insertAll (["50", "30"].map bidOf)).destructor.Perm
        (BinarySearchTree.empty.insertAll (["50", "30"].map bidOf)).root.nodes ∧
      (∀ t : BinarySearchTree, t.destructor.length ≤ 1) ∧
      (∀ t : BinarySearchTree, 2 ≤ t.root.bids.length → ¬ t.destructor.Perm t.root.nodes) := by
  have hlen : ∀ t : BinarySearchTree, t.destructor.length ≤ 1 := by
    intro t
    unfold BinarySearchTree.destructor
    split_ifs with h
    · rw [recursiveDestructor_length t.root (by simpa using h)]
    · simp
  have hgen : ∀ t : BinarySearchTree, 2 ≤ t.root.bids.length →
      ¬ t.destructor.Perm t.root.nodes := by
    intro t h2 hp
    have h₁ := hp.length_eq
    have h₂ := hlen t
    rw [nodes_length] at h₁
    omega
  refine ⟨by decide, by decide, ?_, hlen, hgen⟩
  exact hgen _ (by decide)

/-! ## Search on trees with the weak invariant -/

theorem searchHit_of_mem {n : Node} {k : String} (hw : WeakBST n)
    (hk : ∃ x ∈ n.bids, x.bidId = k) : ∃ y, searchHit n k = some y := by
  induction n with
  | nullptr => simp [Node.bids] at hk
  | mk b l r ihl ihr =>
    obtain ⟨hL, hR, hwl, hwr⟩ := hw
    obtain ⟨x, hx, hxk⟩ := hk
    by_cases hbk : b.bidId = k
    · exact ⟨b, by simp [searchHit, hbk]⟩
    · have hx' : x ∈ l.bids ∨ x ∈ r.bids := by
        simp only [Node.bids, List.mem_append, List.mem_cons] at hx
        rcases hx with hx | rfl | hx
        · exact Or.inl hx
        · exact absurd hxk hbk
        · exact Or.inr hx
      by_cases hgt : strGt b.bidId k = true
      · -- the id is smaller than the node's: it cannot be on the right
        have hxl : x ∈ l.bids := by
          rcases hx' with hx' | hx'
          · exact hx'
          · have := hR x hx'
            rw [hxk] at this
            unfold strLe at this
            unfold strGt at hgt
            rw [hgt] at this; cases this
        have hln : l.isNull = false := by
          cases l with
          | nullptr => simp [Node.bids] at hxl
          | mk _ _ _ => rfl
        obtain ⟨y, hy⟩ := ihl hwl ⟨x, hxl, hxk⟩
        exact ⟨y, by simp [searchHit, hbk, hgt, hln, hy]⟩
      · have hgt' : strGt b.bidId k = false := by simpa using hgt
        have hlt : strLt b.bidId k = true := by
          cases h : strLt b.bidId k with
          | true => rfl
          | false => exact absurd (strLt_total h hgt') hbk
        have hxr : x ∈ r.bids := by
          rcases hx' with hx' | hx'
          · have := hL x hx'
            rw [hxk] at this
            unfold strLe at this
            rw [hlt] at this; cases this
          · exact hx'
        have hrn : r.isNull = false := by
          cases r with
          | nullptr => simp [Node.bids] at hxr
          | mk _ _ _ => rfl
        obtain ⟨y, hy⟩ := ihr hwr ⟨x, hxr, hxk⟩
        exact ⟨y, by simp [searchHit, hbk, hgt', hlt, hrn, hy]⟩

/-- C19: on every tree with the weak search-tree invariant, however it was built, `Search(k)`
returns a bid stored in the tree whose `bidId` is `k` if some node holds the id `k`, and the
default bid otherwise. -/
theorem search_complete_on_weak_bst (t : BinarySearchTree) (k : String)
    (hw : WeakBST t.root) :
    ((∃ x ∈ t.root.bids, x.bidId = k) →
        t.Search k ∈ t.root.bids ∧ (t.Search k).bidId = k) ∧
      ((∀ x ∈ t.root.bids, x.bidId ≠ k) → t.Search k = emptyBid) := by
  unfold BinarySearchTree.Search
  rw [searchLoop_eq_searchHit]
  constructor
  · intro hk
    obtain ⟨y, hy⟩ := searchHit_of_mem hw hk
    rw [hy]
    exact searchHit_some hy
  · intro hno
    cases h : searchHit t.root k with
    | none => rfl
    | some x => exact absurd (searchHit_some h).2 (hno x (searchHit_some h).1)

/-- Witness for C19: a tree with the weak invariant that holds "50" twice (root and left
child); the search for "70" returns the bid stored under "70". -/
theorem search_complete_on_weak_bst_witness :
    WeakBST (BinarySearchTree.mk (Node.mk (bidOf "50") (Node.leaf (Bid.mk "50" "dup" "" 0))
        (Node.leaf (bidOf "70")))).root ∧
      (BinarySearchTree.mk (Node.mk (bidOf "50") (Node.leaf (Bid.mk "50" "dup" "" 0))
        (Node.leaf (bidOf "70")))).Search "70" ∈
        [Bid.mk "50" "dup" "" 0, bidOf "50", bidOf "70"] :=
  ⟨by decide,
    ((search_complete_on_weak_bst (BinarySearchTree.mk (Node.mk (bidOf "50")
      (Node.leaf (Bid.mk "50" "dup" "" 0)) (Node.leaf (bidOf "70")))) "70" (by decide)).1
      ⟨bidOf "70", by decide, by decide⟩).1⟩

/-! ## What one `Insert` changes -/

/-- The method `addNode` hangs one new childless node on a child link that was `nullptr`. -/
theorem addNode_eq_replace (n : Node) (bid : Bid) (h : n.isNull = false) :
    ∃ p : Path, n.subtree p = Node.nullptr ∧ addNode n bid = n.replace p (Node.leaf bid) ∧
      (addNode n bid).subtree p = Node.leaf bid := by
  induction n with
  | nullptr => simp at h
  | mk b l r ihl ihr =>
    simp only [addNode]
    split_ifs with h₁ h₂ h₃
    · refine ⟨[Dir.left], ?_, ?_, ?_⟩
      · simpa [Node.subtree] using Node.eq_nullptr_of_isNull h₂
      · simp [Node.replace]
      · rfl
    · obtain ⟨p, hp₁, hp₂, hp₃⟩ := ihl (by simpa using h₂)
      refine ⟨Dir.left :: p, ?_, ?_, ?_⟩
      · simpa [Node.subtree] using hp₁
      · simp [Node.replace, hp₂]
      · simpa [Node.subtree] using hp₃
    · refine ⟨[Dir.right], ?_, ?_, ?_⟩
      · simpa [Node.subtree] using Node.eq_nullptr_of_isNull h₃
      · simp [Node.replace]
      · rfl
    · obtain ⟨p, hp₁, hp₂, hp₃⟩ := ihr (by simpa using h₃)
      refine ⟨Dir.right :: p, ?_, ?_, ?_⟩
      · simpa [Node.subtree] using hp₁
      · simp [Node.replace, hp₂]
      · simpa [Node.subtree] using hp₃

/-- Every node of the tree is, after `addNode`, at the same place with the same bid. -/
theorem addNode_keeps_nodes (bid : Bid) {b : Bid} {l r : Node} :
    ∀ (q : Path) (n : Node), n.subtree q = Node.mk b l r →
      ∃ l' r', (addNode n bid).subtree q = Node.mk b l' r'
  | [], n, h => by
    simp only [Node.subtree_nil] at h
    subst h
    simp only [addNode]
    split_ifs <;> exact ⟨_, _, Node.subtree_nil _⟩
  | _ :: _, .nullptr, h => by simp at h
  | Dir.left :: q, .mk nb nl nr, h => by
    have h' : nl.subtree q = Node.mk b l r := h
    have hnl : nl.isNull = false := Node.isNull_false_of_subtree h'
    obtain ⟨l', r', ih⟩ := addNode_keeps_nodes bid q nl h'
    simp only [addNode, hnl, Bool.false_eq_true, if_false]
    split_ifs
    · exact ⟨l', r', ih⟩
    · exact ⟨l, r, h'⟩
    · exact ⟨l, r, h'⟩
  | Dir.right :: q, .mk nb nl nr, h => by
    have h' : nr.subtree q = Node.mk b l r := h
    have hnr : nr.isNull = false := Node.isNull_false_of_subtree h'
    obtain ⟨l', r', ih⟩ := addNode_keeps_nodes bid q nr h'
    simp only [addNode, hnr, Bool.false_eq_true, if_false]
    split_ifs
    · exact ⟨l, r, h'⟩
    · exact ⟨l, r, h'⟩
    · exact ⟨l', r', ih⟩

/-- C11: `Insert(r)` changes no existing node.  The new tree is the old tree with one new
childless node holding `r` written into a child link that was `nullptr` (the root pointer
when the tree was empty); every node of the old tree is at the same place with the same bid;
the stored bids afterwards are the previous ones plus `r`, also when the id of `r` is already
present. -/
theorem insert_adds_one_leaf (t : BinarySearchTree) (r : Bid) :
    (∃ p : Path, t.root.subtree p = Node.nullptr ∧
        (t.Insert r).root = t.root.replace p (Node.leaf r) ∧
        (t.Insert r).root.subtree p = Node.leaf r) ∧
      (t.root = Node.nullptr → (t.Insert r).root = Node.leaf r) ∧
      (∀ (q : Path) (b : Bid) (l r' : Node), t.root.subtree q = Node.mk b l r' →
        ∃ l' r'', (t.Insert r).root.subtree q = Node.mk b l' r'') ∧
      (t.Insert r).root.bids.Perm (r :: t.root.bids) := by
  refine ⟨?_, ?_, ?_, bids_Insert_perm t r⟩
  · unfold BinarySearchTree.Insert
    by_cases h : t.root.isNull = true
    · have hn := Node.eq_nullptr_of_isNull h
      exact ⟨[], by simp [hn], by simp [h, Node.replace], by simp [h]⟩
    · have h' : t.root.isNull = false := by simpa using h
      simpa [h'] using addNode_eq_replace t.root r h'
  · intro hn
    simp [BinarySearchTree.Insert, hn]
  · intro q b l r' hq
    have h' : t.root.isNull = false := Node.isNull_false_of_subtree hq
    simpa [BinarySearchTree.Insert, h'] using addNode_keeps_nodes r q t.root hq

/-! ## Ascending insertion order -/

theorem chain_isNull_cons (x : Bid) (xs : List Bid) : (Node.chain (x :: xs)).isNull = false :=
  rfl

theorem addNode_chain (b : Bid) : ∀ (xs : List Bid) (x : Bid),
    (∀ y ∈ x :: xs, strLt y.bidId b.bidId = true) →
      addNode (Node.chain (x :: xs)) b = Node.chain (x :: xs ++ [b])
  | [], x, h => by
    have hx : strGt x.bidId b.bidId = false := strLt_asymm (h x (by simp))
    simp [Node.chain, addNode, hx, Node.leaf]
  | y :: ys, x, h => by
    have hx : strGt x.bidId b.bidId = false := strLt_asymm (h x (by simp))
    have ih := addNode_chain b ys y (fun z hz => h z (List.mem_cons_of_mem _ hz))
    have e : Node.chain (x :: y :: ys) = Node.mk x Node.nullptr (Node.chain (y :: ys)) := rfl
    rw [e, addNode]
    simp only [hx, chain_isNull_cons, Bool.false_eq_true, if_false, ih]
    rfl

theorem insertAll_append (t : BinarySearchTree) (bs : List Bid) (b : Bid) :
    t.insertAll (bs ++ [b]) = (t.insertAll bs).Insert b := by
  simp [BinarySearchTree.insertAll, List.foldl_append]

theorem insertAll_ascending (bids : List Bid)
    (hasc : (bids.map Bid.bidId).Pairwise (fun a b => strLt a b = true)) :
    (BinarySearchTree.empty.insertAll bids).root = Node.chain bids := by
  induction bids using List.reverseRecOn with
  | nil => rfl
  | append_singleton bs b ih =>
    rw [List.map_append, List.pairwise_append] at hasc
    obtain ⟨h₁, -, h₃⟩ := hasc
    have hlt : ∀ y ∈ bs, strLt y.bidId b.bidId = true := fun y hy =>
      h₃ y.bidId (List.mem_map_of_mem _ hy) b.bidId (by simp)
    rw [insertAll_append]
    unfold BinarySearchTree.Insert
    rw [ih h₁]
    cases bs with
    | nil => rfl
    | cons x xs =>
      simp only [chain_isNull_cons, Bool.false_eq_true, if_false]
      exact addNode_chain b xs x hlt

theorem chain_height (bs : List Bid) : (Node.chain bs).height = bs.length := by
  induction bs with
  | nil => rfl
  | cons b bs ih => simp [Node.chain, Node.height, ih]; omega

theorem chain_noLeftChild (bs : List Bid) : (Node.chain bs).noLeftChild := by
  induction bs with
  | nil => trivial
  | cons b bs ih => exact ⟨rfl, ih⟩

/-- C16: inserting bids whose ids are strictly ascending, in that order, into the empty tree
gives a right-leaning chain: the tree is the list of the bids linked through the right
pointers, no node has a left child, and the height is the number of bids. -/
theorem ascending_inserts_give_chain (bids : List Bid)
    (hasc : (bids.map Bid.bidId).Pairwise (fun a b => strLt a b = true)) :
    (BinarySearchTree.empty.insertAll bids).root = Node.chain bids ∧
      (BinarySearchTree.empty.insertAll bids).root.noLeftChild ∧
      (BinarySearchTree.empty.insertAll bids).root.height = bids.length := by
  rw [insertAll_ascending bids hasc]
  exact ⟨rfl, chain_noLeftChild bids, chain_height bids⟩

/-- Witness for C16: the ids "10", "20", "30", "40" are strictly ascending. -/
theorem ascending_inserts_give_chain_witness :
    ((["10", "20", "30", "40"].map bidOf).map Bid.bidId).Pairwise
        (fun a b => strLt a b = true) ∧
      (BinarySearchTree.empty.insertAll (["10", "20", "30", "40"].map bidOf)).root.height = 4 :=
  ⟨by decide, (ascending_inserts_give_chain (["10", "20", "30", "40"].map bidOf)
    (by decide)).2.2⟩

/-! ## `InOrder` after a run of inserts is the stable sort -/

theorem strLe_total (a b : String) : strLe a b ∨ strLe b a := by
  unfold strLe
  cases h : strLt b a with
  | false => exact Or.inl rfl
  | true => exact Or.inr (strLt_asymm h)

theorem strLe_antisymm {a b : String} (h₁ : strLe a b) (h₂ : strLe b a) : a = b :=
  strLt_total h₂ h₁

/-- Where `addNode` puts a bid among those of the same id: behind all of them. -/
theorem filter_addNode (n : Node) (bid : Bid) (k : String) (h : n.isNull = false)
    (hw : WeakBST n) :
    (addNode n bid).bids.filter (fun x => decide (x.bidId = k))
      = n.bids.filter (fun x => decide (x.bidId = k))
        ++ (if bid.bidId = k then [bid] else []) := by
  induction n with
  | nullptr => simp at h
  | mk b l r ihl ihr =>
    obtain ⟨-, hR, hwl, hwr⟩ := hw
    -- when the new bid goes left and carries the id `k`, nothing from the node on does
    have hnone : strGt b.bidId bid.bidId = true → bid.bidId = k →
        (b :: r.bids).filter (fun x => decide (x.bidId = k)) = [] := by
      intro hgt hk
      rw [List.filter_eq_nil_iff]
      intro x hx
      have hbx : strLe b.bidId x.bidId := by
        rcases List.mem_cons.mp hx with rfl | hx
        · exact strLe_refl _
        · exact hR x hx
      have hne : x.bidId ≠ k := by
        intro e
        rw [e, ← hk] at hbx
        unfold strLe at hbx
        unfold strGt at hgt
        rw [hgt] at hbx; cases hbx
      simpa using hne
    simp only [addNode]
    split_ifs with h₁ h₂ h₃ h₄ h₅ h₆
    all_goals simp only [Node.bids, bids_leaf, List.filter_append, List.append_assoc,
      List.append_nil]
    · rw [Node.eq_nullptr_of_isNull h₂, hnone h₁ h₃]; simp [Node.bids, h₃]
    · rw [Node.eq_nullptr_of_isNull h₂]; simp [Node.bids, h₃]
    · rw [ihl (by simpa using h₂) hwl, hnone h₁ h₄]; simp [h₄]
    · rw [ihl (by simpa using h₂) hwl]; simp [h₄]
    · rw [Node.eq_nullptr_of_isNull h₅]
      by_cases hb : b.bidId = k <;> simp [Node.bids, List.filter_cons, h₆, hb]
    · rw [Node.eq_nullptr_of_isNull h₅]
      by_cases hb : b.bidId = k <;> simp [Node.bids, List.filter_cons, h₆, hb]
    · rw [List.filter_cons, ihr (by simpa using h₅) hwr]
      split_ifs <;> simp [List.filter_cons, *]
    · rw [List.filter_cons, ihr (by simpa using h₅) hwr]
      split_ifs <;> simp [List.filter_cons, *]

theorem filter_Insert (t : BinarySearchTree) (bid : Bid) (k : String) (hw : WeakBST t.root) :
    (t.Insert bid).root.bids.filter (fun x => decide (x.bidId = k))
      = t.root.bids.filter (fun x => decide (x.bidId = k))
        ++ (if bid.bidId = k then [bid] else []) := by
  unfold BinarySearchTree.Insert
  by_cases h : t.root.isNull = true
  · simp only [h, if_true, Node.eq_nullptr_of_isNull h, bids_leaf, Node.bids]
    by_cases hb : bid.bidId = k <;> simp [List.filter_cons, hb]
  · have h' : t.root.isNull = false := by simpa using h
    simpa [h'] using filter_addNode t.root bid k h' hw

theorem filter_insertAll (bids : List Bid) (t : BinarySearchTree) (k : String)
    (hw : WeakBST t.root) :
    (t.insertAll bids).root.bids.filter (fun x => decide (x.bidId = k))
      = t.root.bids.filter (fun x => decide (x.bidId = k))
        ++ bids.filter (fun x => decide (x.bidId = k)) := by
  induction bids generalizing t with
  | nil => simp [BinarySearchTree.insertAll]
  | cons b bs ih =>
    have h := ih (t.Insert b) (weakBST_Insert t b hw)
    simp only [BinarySearchTree.insertAll, List.foldl_cons] at h ⊢
    rw [h, filter_Insert t b k hw]
    by_cases hb : b.bidId = k <;> simp [List.filter_cons, hb]

/-- A list of bids sorted by id is determined by the order in which it lists, for each id,
the bids of that id. -/
theorem eq_of_sorted_of_filter_eq : ∀ (l₁ l₂ : List Bid), l₁.Pairwise bidLe →
    l₂.Pairwise bidLe →
    (∀ k : String, l₁.filter (fun x => decide (x.bidId = k))
      = l₂.filter (fun x => decide (x.bidId = k))) → l₁ = l₂
  | [], [], _, _, _ => rfl
  | [], c :: l₂, _, _, h => by
    have := h c.bidId
    simp [List.filter_cons] at this
  | a :: l₁, [], _, _, h => by
    have := h a.bidId
    simp [List.filter_cons] at this
  | a :: l₁, c :: l₂, h₁, h₂, h => by
    have ha : a ∈ c :: l₂ := by
      have hm : a ∈ (a :: l₁).filter (fun x => decide (x.bidId = a.bidId)) := by
        simp [List.filter_cons]
      rw [h a.bidId] at hm
      exact (List.mem_filter.mp hm).1
    have hc : c ∈ a :: l₁ := by
      have hm : c ∈ (c :: l₂).filter (fun x => decide (x.bidId = c.bidId)) := by
        simp [List.filter_cons]
      rw [← h c.bidId] at hm
      exact (List.mem_filter.mp hm).1
    have hca : strLe c.bidId a.bidId := by
      rcases List.mem_cons.mp ha with rfl | ha
      · exact strLe_refl _
      · exact (List.pairwise_cons.mp h₂).1 a ha
    have hac : strLe a.bidId c.bidId := by
      rcases List.mem_cons.mp hc with rfl | hc
      · exact strLe_refl _
      · exact (List.pairwise_cons.mp h₁).1 c hc
    have hid : a.bidId = c.bidId := strLe_antisymm hac hca
    have hhead : a = c := by
      have := h a.bidId
      simp [List.filter_cons, hid] at this
      exact this.1
    subst hhead
    have htail : ∀ k : String, l₁.filter (fun x => decide (x.bidId = k))
        = l₂.filter (fun x => decide (x.bidId = k)) := by
      intro k
      have := h k
      by_cases hk : a.bidId = k <;> simpa [List.filter_cons, hk] using this
    rw [eq_of_sorted_of_filter_eq l₁ l₂ (List.pairwise_cons.mp h₁).2
      (List.pairwise_cons.mp h₂).2 htail]

theorem filter_orderedInsert (a : Bid) (k : String) : ∀ l : List Bid,
    (List.orderedInsert bidLe a l).filter (fun x => decide (x.bidId = k))
      = (if a.bidId = k then [a] else []) ++ l.filter (fun x => decide (x.bidId = k))
  | [] => by by_cases ha : a.bidId = k <;> simp [List.filter_cons, ha]
  | b :: l => by
    by_cases hab : bidLe a b
    · by_cases ha : a.bidId = k <;> simp [List.orderedInsert, hab, List.filter_cons, ha]
    · have hne : a.bidId ≠ b.bidId := by
        intro e
        apply hab
        unfold bidLe
        rw [e]
        exact strLe_refl _
      have ih := filter_orderedInsert a k l
      by_cases ha : a.bidId = k
      · have hb : b.bidId ≠ k := fun e => hne (ha.trans e.symm)
        simp [List.orderedInsert, hab, List.filter_cons, ha, hb, ih]
      · by_cases hb : b.bidId = k <;>
          simp [List.orderedInsert, hab, List.filter_cons, ha, hb, ih]

theorem filter_stableSortById (k : String) : ∀ bids : List Bid,
    (stableSortById bids).filter (fun x => decide (x.bidId = k))
      = bids.filter (fun x => decide (x.bidId = k))
  | [] => rfl
  | b :: bs => by
    have ih := filter_stableSortById k bs
    unfold stableSortById at ih ⊢
    rw [List.insertionSort, filter_orderedInsert, ih]
    by_cases hb : b.bidId = k <;> simp [List.filter_cons, hb]

theorem sorted_stableSortById (bids : List Bid) : (stableSortById bids).Pairwise bidLe := by
  haveI : IsTotal Bid bidLe := ⟨fun a b => strLe_total a.bidId b.bidId⟩
  haveI : IsTrans Bid bidLe := ⟨fun _ _ _ h₁ h₂ => strLe_trans h₁ h₂⟩
  exact List.sorted_insertionSort bidLe bids

/-- C18: after inserting any finite sequence of bids (duplicate ids allowed) into the empty
tree, `InOrder` is the stable sort of the sequence by id: it is a permutation of the inserted
bids, it is sorted by id, and for every id it lists the bids of that id in insertion order;
no other list has these three properties. -/
theorem inOrder_is_stable_sort (bids : List Bid) :
    (BinarySearchTree.empty.insertAll bids).InOrder = stableSortById bids ∧
      ((BinarySearchTree.empty.insertAll bids).InOrder).Perm bids ∧
      (((BinarySearchTree.empty.insertAll bids).InOrder).map Bid.bidId).Pairwise strLe ∧
      (∀ k : String,
        ((BinarySearchTree.empty.insertAll bids).InOrder).filter (fun x => decide (x.bidId = k))
          = bids.filter (fun x => decide (x.bidId = k))) ∧
      (∀ l : List Bid, l.Perm bids → (l.map Bid.bidId).Pairwise strLe →
        (∀ k : String, l.filter (fun x => decide (x.bidId = k))
          = bids.filter (fun x => decide (x.bidId = k))) →
        l = (BinarySearchTree.empty.insertAll bids).InOrder) := by
  have hw : WeakBST (BinarySearchTree.empty.insertAll bids).root :=
    weakBST_insertAll bids BinarySearchTree.empty trivial
  have hsorted := sorted_bids_of_weakBST _ hw
  have hfilter : ∀ k : String,
      (BinarySearchTree.empty.insertAll bids).root.bids.filter (fun x => decide (x.bidId = k))
        = bids.filter (fun x => decide (x.bidId = k)) := by
    intro k
    rw [filter_insertAll bids BinarySearchTree.empty k trivial]
    simp [BinarySearchTree.empty, Node.bids]
  have hperm : (BinarySearchTree.empty.insertAll bids).root.bids.Perm bids := by
    simpa [BinarySearchTree.empty, Node.bids] using
      bids_insertAll_perm bids BinarySearchTree.empty
  have hpw : ∀ l : List Bid, (l.map Bid.bidId).Pairwise strLe → l.Pairwise bidLe := by
    intro l hl
    rw [List.pairwise_map] at hl
    exact hl
  rw [InOrder_eq_bids]
  refine ⟨?_, hperm, hsorted, hfilter, ?_⟩
  · apply eq_of_sorted_of_filter_eq _ _ (hpw _ hsorted) (sorted_stableSortById bids)
    intro k
    rw [hfilter k, filter_stableSortById k bids]
  · intro l _ hl hf
    apply eq_of_sorted_of_filter_eq _ _ (hpw _ hl) (hpw _ hsorted)
    intro k
    rw [hf k, hfilter k]

/-! ## Bids that stay stored but can no longer be found -/

theorem preOrder_perm_bids (n : Node) : (preOrder n).Perm n.bids := by
  induction n with
  | nullptr => exact List.Perm.refl _
  | mk b l r ihl ihr =>
    have hl : (if l.isNull = true then [] else preOrder l) = preOrder l := by
      cases l <;> simp [preOrder]
    have hr : (if r.isNull = true then [] else preOrder r) = preOrder r := by
      cases r <;> simp [preOrder]
    simp only [preOrder, Node.bids, hl, hr, List.singleton_append, List.cons_append,
      List.nil_append]
    exact ((ihl.append ihr).cons b).trans List.perm_middle.symm

theorem postOrder_perm_bids (n : Node) : (postOrder n).Perm n.bids := by
  induction n with
  | nullptr => exact List.Perm.refl _
  | mk b l r ihl ihr =>
    have hl : (if l.isNull = true then [] else postOrder l) = postOrder l := by
      cases l <;> simp [postOrder]
    have hr : (if r.isNull = true then [] else postOrder r) = postOrder r := by
      cases r <;> simp [postOrder]
    simp only [postOrder, Node.bids, hl, hr, List.append_assoc]
    refine (List.Perm.append_left _ ?_).trans (ihl.append_right _)
    exact (List.perm_append_comm).trans (ihr.cons b)

theorem mem_traversals {t : BinarySearchTree} {x : Bid} (h : x ∈ t.root.bids) :
    x ∈ t.InOrder ∧ x ∈ t.PreOrder ∧ x ∈ t.PostOrder := by
  have hnn : t.root.isNull = false := by
    cases ht : t.root with
    | nullptr => rw [ht] at h; simp [Node.bids] at h
    | mk _ _ _ => rfl
  refine ⟨by rw [InOrder_eq_bids]; exact h, ?_, ?_⟩
  · simp only [BinarySearchTree.PreOrder, hnn, Bool.false_eq_true, if_false]
    exact (preOrder_perm_bids t.root).mem_iff.mpr h
  · simp only [BinarySearchTree.PostOrder, hnn, Bool.false_eq_true, if_false]
    exact (postOrder_perm_bids t.root).mem_iff.mpr h

theorem searchHit_none_of_absent {n : Node} {k : String}
    (h : ∀ x ∈ n.bids, x.bidId ≠ k) : searchHit n k = none := by
  cases hs : searchHit n k with
  | none => rfl
  | some y => exact absurd (searchHit_some hs).2 (h y (searchHit_some hs).1)

theorem Node.replace_isNull {s : Node} (hs : s.isNull = false) : ∀ (n : Node) (p : Path),
    (n.subtree p).isNull = false → (n.replace p s).isNull = false
  | _, [], _ => by simpa [Node.replace] using hs
  | .nullptr, _ :: _, h => by simp at h
  | .mk _ _ _, Dir.left :: _, _ => rfl
  | .mk _ _ _, Dir.right :: _, _ => rfl

/-- In a strict search tree, after the subtree at `P` has been overwritten by a non-null `s`,
the search for an id that was stored at or below `P` walks from the top down to `s` and
answers what it answers when started at `s`. -/
theorem searchHit_replace_descend {k : String} {pb x : Bid} {pl pr s : Node}
    (hs : s.isNull = false) (hx : x ∈ (Node.mk pb pl pr).bids) (hxk : x.bidId = k) :
    ∀ (p : Path) (n : Node), StrictBST n → n.subtree p = Node.mk pb pl pr →
      searchHit (n.replace p s) k = searchHit s k
  | [], _, _, _ => by simp [Node.replace]
  | _ :: _, .nullptr, _, hP => by simp at hP
  | Dir.left :: p, .mk b l r, hn, hP => by
    have hPl : l.subtree p = Node.mk pb pl pr := hP
    have hxl : x ∈ l.bids := Node.mem_bids_of_mem_subtree l p (by rw [hPl]; exact hx)
    have h₁ : strGt b.bidId k = true := by rw [← hxk]; exact hn.1 x hxl
    have h₂ : b.bidId ≠ k := (strLt_ne h₁).symm
    have h₃ : (l.replace p s).isNull = false :=
      Node.replace_isNull hs l p (by rw [hPl]; rfl)
    have ih := searchHit_replace_descend hs hx hxk p l hn.2.2.1 hPl
    simp [Node.replace, searchHit, h₁, h₂, h₃, ih]
  | Dir.right :: p, .mk b l r, hn, hP => by
    have hPr : r.subtree p = Node.mk pb pl pr := hP
    have hxr : x ∈ r.bids := Node.mem_bids_of_mem_subtree r p (by rw [hPr]; exact hx)
    have h₁ : strLt b.bidId k = true := by rw [← hxk]; exact hn.2.1 x hxr
    have h₂ : b.bidId ≠ k := strLt_ne h₁
    have h₃ : (r.replace p s).isNull = false :=
      Node.replace_isNull hs r p (by rw [hPr]; rfl)
    have h₄ : strGt b.bidId k = false := strLt_asymm h₁
    have ih := searchHit_replace_descend hs hx hxk p r hn.2.2.2 hPr
    simp [Node.replace, searchHit, h₁, h₂, h₃, h₄, ih]

/-- In a strict search tree `Remove` of the id of a left child `L` of `P` excises `L`: both
links of `P` are overwritten with the children of `L`. -/
theorem Remove_left_child {t : BinarySearchTree} {p : Path} {pb lb : Bid} {ll lr R : Node}
    (hs : StrictBST t.root) (hP : t.root.subtree p = Node.mk pb (Node.mk lb ll lr) R) :
    t.Remove lb.bidId
      = ({ root := t.root.replace p (Node.mk pb ll lr) }, [Report.deleting lb]) := by
  have hrn : removeNode t.root lb.bidId = some p := by
    rw [removeNode_descend p t.root hs hP ⟨lb, Or.inl (by simp [Node.bids]), rfl⟩,
      removeNode_left]
    simp
  rw [Remove_of_parent (Node.isNull_false_of_subtree hP) hrn]
  simp only [hP, if_true]

/-- C20: in a tree built by `Insert` from pairwise distinct ids, let `P` (reached by the path
`p`) have a left child `L` whose right subtree is not empty.  After `Remove(L.id)` every bid
of the former right subtree of `L` is still stored in the tree, so `InOrder`, `PreOrder` and
`PostOrder` list it, but `Search` of its id returns the default bid. -/
theorem remove_left_child_hides_its_right_subtree (bids : List Bid)
    (hd : (bids.map Bid.bidId).Nodup) (t : BinarySearchTree)
    (ht : t = BinarySearchTree.empty.insertAll bids) (p : Path) (pb lb : Bid)
    (ll lr R : Node) (hP : t.root.subtree p = Node.mk pb (Node.mk lb ll lr) R)
    (_hlr : lr.isNull = false) :
    ∀ x ∈ lr.bids,
      x ∈ (t.Remove lb.bidId).1.InOrder ∧ x ∈ (t.Remove lb.bidId).1.PreOrder ∧
        x ∈ (t.Remove lb.bidId).1.PostOrder ∧
        (t.Remove lb.bidId).1.Search x.bidId = emptyBid := by
  intro x hx
  obtain ⟨hs, -⟩ := built_tree_facts bids hd
  rw [← ht] at hs
  rw [Remove_left_child hs hP]
  have hv : (t.root.subtree p).isNull = false := by rw [hP]; rfl
  have hsP : StrictBST (Node.mk pb (Node.mk lb ll lr) R) := by
    rw [← hP]; exact StrictBST.subtree _ _ hs
  have hxL : x ∈ (Node.mk lb ll lr).bids := by simp [Node.bids, hx]
  have hxP : x ∈ (Node.mk pb (Node.mk lb ll lr) R).bids := by
    simp only [Node.bids] at hxL ⊢
    exact List.mem_append_left _ hxL
  -- the bid is still stored
  have hmem : x ∈ (t.root.replace p (Node.mk pb ll lr)).bids :=
    Node.mem_bids_of_mem_subtree _ p (by
      rw [Node.subtree_replace _ _ _ hv]; simp [Node.bids, hx])
  obtain ⟨h₁, h₂, h₃⟩ := mem_traversals (show x ∈
    (BinarySearchTree.mk (t.root.replace p (Node.mk pb ll lr))).root.bids from hmem)
  refine ⟨h₁, h₂, h₃, ?_⟩
  -- the search goes to the left of `P` or stops at `P`
  have hlt : strGt pb.bidId x.bidId = true := hsP.1 x hxL
  have hne : pb.bidId ≠ x.bidId := (strLt_ne hlt).symm
  have hgt : strLt pb.bidId x.bidId = false := strLt_asymm hlt
  have hlbx : strLt lb.bidId x.bidId = true := hsP.2.2.1.2.1 x hx
  have habs : ∀ y ∈ ll.bids, y.bidId ≠ x.bidId := fun y hy =>
    strLt_ne (strLt_trans (hsP.2.2.1.1 y hy) hlbx)
  have hP' : searchHit (Node.mk pb ll lr) x.bidId = none := by
    by_cases hl : ll.isNull = true
    · simp [searchHit, hne, hl, hgt]
    · have hl' : ll.isNull = false := by simpa using hl
      simp [searchHit, hne, hl', hlt, searchHit_none_of_absent habs]
  unfold BinarySearchTree.Search
  rw [searchLoop_eq_searchHit]
  show (searchHit (t.root.replace p (Node.mk pb ll lr)) x.bidId).getD emptyBid = emptyBid
  rw [searchHit_replace_descend (Node.isNull_mk pb ll lr) hxP rfl p t.root hs hP, hP']
  rfl

/-- Witness for C20: in the tree built from "50", "30", "70", "20", "40" the left child "30"
of the root has the right child "40"; after `Remove("30")` the bid "40" hangs to the right of
the root "50", the traversals list it and `Search("40")` returns the default bid. -/
theorem remove_left_child_hides_its_right_subtree_witness :
    ((["50", "30", "70", "20", "40"].map bidOf).map Bid.bidId).Nodup ∧
      (BinarySearchTree.empty.insertAll (["50", "30", "70", "20", "40"].map bidOf)).root.subtree []
        = Node.mk (bidOf "50")
            (Node.mk (bidOf "30") (Node.leaf (bidOf "20")) (Node.leaf (bidOf "40")))
            (Node.leaf (bidOf "70")) ∧
      bidOf "40" ∈ ((BinarySearchTree.empty.insertAll
        (["50", "30", "70", "20", "40"].map bidOf)).Remove "30").1.InOrder ∧
      ((BinarySearchTree.empty.insertAll
        (["50", "30", "70", "20", "40"].map bidOf)).Remove "30").1.Search "40" = emptyBid :=
  ⟨by decide, by decide,
    (remove_left_child_hides_its_right_subtree (["50", "30", "70", "20", "40"].map bidOf)
      (by decide) _ rfl [] (bidOf "50") (bidOf "30") (Node.leaf (bidOf "20"))
      (Node.leaf (bidOf "40")) (Node.leaf (bidOf "70")) (by decide) (by decide)
      (bidOf "40") (by decide)).1,
    (remove_left_child_hides_its_right_subtree (["50", "30", "70", "20", "40"].map bidOf)
      (by decide) _ rfl [] (bidOf "50") (bidOf "30") (Node.leaf (bidOf "20"))
      (Node.leaf (bidOf "40")) (Node.leaf (bidOf "70")) (by decide) (by decide)
      (bidOf "40") (by decide)).2.2.2⟩

end BST
